import Mathlib

/-!
Verification of the picoclaw agent gateway against its specification.

Each section shallowly embeds one component of the Go source as executable
Lean definitions (pure functions; library calls such as MD5, SHA-256 and
UTF-8 encoding are implemented from their standards so that point ids and
webhook signatures are computed for real), and proves the specified
properties about them.
-/

namespace Crypto

/-- Truncation to a 32-bit word, as Go `uint32` arithmetic wraps. -/
def w32 (n : Nat) : Nat := n % 4294967296

/-- Left rotation of a 32-bit word `x` (assumed `< 2^32`) by `n` bits. -/
def rotl32 (x n : Nat) : Nat := (x * 2 ^ n) % 4294967296 + x / 2 ^ (32 - n)

/-- Bitwise complement of a 32-bit word. -/
def not32 (x : Nat) : Nat := Nat.xor x 4294967295

/-- UTF-8 encoding of one scalar value, as Go strings store text. -/
def utf8Char (c : Char) : List Nat :=
  let n := c.toNat
  if n < 128 then [n]
  else if n < 2048 then [192 + n / 64, 128 + n % 64]
  else if n < 65536 then [224 + n / 4096, 128 + n / 64 % 64, 128 + n % 64]
  else [240 + n / 262144, 128 + n / 4096 % 64, 128 + n / 64 % 64, 128 + n % 64]

/-- The byte sequence of a Go string (`[]byte(s)`). -/
def utf8Bytes (s : String) : List Nat := (s.data.map utf8Char).flatten

/-- Lowercase hexadecimal digit. -/
def hexDigit (n : Nat) : Char :=
  if n < 10 then Char.ofNat (48 + n) else Char.ofNat (87 + n % 16)

/-- Two-digit lowercase hex of a byte, as Go `hex.EncodeToString` emits. -/
def byteHex (b : Nat) : List Char := [hexDigit (b / 16 % 16), hexDigit (b % 16)]

/-- Lowercase hex encoding of a byte sequence (Go `hex.EncodeToString`). -/
def hexEncode (bs : List Nat) : String := ⟨(bs.map byteHex).flatten⟩

/-! ### MD5 (RFC 1321), required by `uuid.NewMD5` for archival point ids. -/

/-- The 64 MD5 sine-derived round constants. -/
def md5K : Array Nat := #[
  0xd76aa478, 0xe8c7b756, 0x242070db, 0xc1bdceee,
  0xf57c0faf, 0x4787c62a, 0xa8304613, 0xfd469501,
  0x698098d8, 0x8b44f7af, 0xffff5bb1, 0x895cd7be,
  0x6b901122, 0xfd987193, 0xa679438e, 0x49b40821,
  0xf61e2562, 0xc040b340, 0x265e5a51, 0xe9b6c7aa,
  0xd62f105d, 0x02441453, 0xd8a1e681, 0xe7d3fbc8,
  0x21e1cde6, 0xc33707d6, 0xf4d50d87, 0x455a14ed,
  0xa9e3e905, 0xfcefa3f8, 0x676f02d9, 0x8d2a4c8a,
  0xfffa3942, 0x8771f681, 0x6d9d6122, 0xfde5380c,
  0xa4beea44, 0x4bdecfa9, 0xf6bb4b60, 0xbebfbc70,
  0x289b7ec6, 0xeaa127fa, 0xd4ef3085, 0x04881d05,
  0xd9d4d039, 0xe6db99e5, 0x1fa27cf8, 0xc4ac5665,
  0xf4292244, 0x432aff97, 0xab9423a7, 0xfc93a039,
  0x655b59c3, 0x8f0ccc92, 0xffeff47d, 0x85845dd1,
  0x6fa87e4f, 0xfe2ce6e0, 0xa3014314, 0x4e0811a1,
  0xf7537e82, 0xbd3af235, 0x2ad7d2bb, 0xeb86d391]

/-- Per-round left-rotation amounts. -/
def md5S : Array Nat := #[
  7, 12, 17, 22, 7, 12, 17, 22, 7, 12, 17, 22, 7, 12, 17, 22,
  5, 9, 14, 20, 5, 9, 14, 20, 5, 9, 14, 20, 5, 9, 14, 20,
  4, 11, 16, 23, 4, 11, 16, 23, 4, 11, 16, 23, 4, 11, 16, 23,
  6, 10, 15, 21, 6, 10, 15, 21, 6, 10, 15, 21, 6, 10, 15, 21]

/-- One MD5 round applied to state `(a, b, c, d)`. -/
def md5Step (m : Array Nat) (st : Nat × Nat × Nat × Nat) (i : Nat) :
    Nat × Nat × Nat × Nat :=
  let (a, b, c, d) := st
  let f :=
    if i < 16 then Nat.lor (Nat.land b c) (Nat.land (not32 b) d)
    else if i < 32 then Nat.lor (Nat.land d b) (Nat.land (not32 d) c)
    else if i < 48 then Nat.xor b (Nat.xor c d)
    else Nat.xor c (Nat.lor b (not32 d))
  let g :=
    if i < 16 then i
    else if i < 32 then (5 * i + 1) % 16
    else if i < 48 then (3 * i + 5) % 16
    else 7 * i % 16
  let sum := w32 (a + f + md5K.getD i 0 + m.getD g 0)
  (d, w32 (b + rotl32 sum (md5S.getD i 0)), b, c)

/-- Split a byte list into 32-bit little-endian words. -/
def leWords : List Nat → List Nat
  | b0 :: b1 :: b2 :: b3 :: rest =>
      (b0 + 256 * b1 + 65536 * b2 + 16777216 * b3) :: leWords rest
  | _ => []

/-- Little-endian bytes of an `n`-byte value. -/
def leBytes (k x : Nat) : List Nat :=
  match k with
  | 0 => []
  | k + 1 => x % 256 :: leBytes k (x / 256)

/-- MD5 compression of one 64-byte block into the running state. -/
def md5Block (st : Nat × Nat × Nat × Nat) (block : List Nat) :
    Nat × Nat × Nat × Nat :=
  let m := (leWords block).toArray
  let (a, b, c, d) := st
  let (a1, b1, c1, d1) := (List.range 64).foldl (md5Step m) (a, b, c, d)
  (w32 (a + a1), w32 (b + b1), w32 (c + c1), w32 (d + d1))

/-- Split a list into 64-byte chunks (structured recursion with fuel equal
to the list length, which bounds the number of chunks). -/
def chunks64 (fuel : Nat) (l : List Nat) : List (List Nat) :=
  match fuel with
  | 0 => []
  | fuel + 1 => if l = [] then [] else l.take 64 :: chunks64 fuel (l.drop 64)

/-- Merkle–Damgård padding shared by MD5: append `0x80`, zero-fill to
56 mod 64, then the bit length in 8 little-endian bytes. -/
def md5Pad (msg : List Nat) : List Nat :=
  let padLen := (120 - (msg.length + 1) % 64) % 64
  msg ++ [128] ++ List.replicate padLen 0 ++ leBytes 8 (msg.length * 8)

/-- MD5 digest of a byte sequence, as 16 bytes. -/
def md5 (msg : List Nat) : List Nat :=
  let padded := md5Pad msg
  let (a, b, c, d) := (chunks64 (padded.length + 1) padded).foldl md5Block
    (0x67452301, 0xefcdab89, 0x98badcfe, 0x10325476)
  leBytes 4 a ++ leBytes 4 b ++ leBytes 4 c ++ leBytes 4 d

/-! ### Name-based UUIDs, as `github.com/google/uuid` computes them. -/

/-- The bytes of `uuid.NameSpaceURL`, `6ba7b811-9dad-11d1-80b4-00c04fd430c8`. -/
def nameSpaceURL : List Nat :=
  [0x6b, 0xa7, 0xb8, 0x11, 0x9d, 0xad, 0x11, 0xd1,
   0x80, 0xb4, 0x00, 0xc0, 0x4f, 0xd4, 0x30, 0xc8]

/-- `uuid.NewMD5(space, data)`: MD5 of the namespace bytes followed by the
name bytes, with the version nibble forced to 3 and the RFC 4122 variant
bits set. -/
def uuidNewMD5 (space data : List Nat) : List Nat :=
  let h := md5 (space ++ data)
  h.mapIdx fun i b =>
    if i = 6 then Nat.lor (Nat.land b 0x0f) 0x30
    else if i = 8 then Nat.lor (Nat.land b 0x3f) 0x80
    else b

/-- `UUID.String()`: lowercase hex in 8-4-4-4-12 groups. -/
def uuidString (u : List Nat) : String :=
  hexEncode (u.take 4) ++ "-" ++ hexEncode ((u.drop 4).take 2) ++ "-" ++
  hexEncode ((u.drop 6).take 2) ++ "-" ++ hexEncode ((u.drop 8).take 2) ++
  "-" ++ hexEncode (u.drop 10)

/-! ### SHA-256 (FIPS 180-4) and HMAC (RFC 2104), for webhook signatures. -/

/-- Right rotation of a 32-bit word by `n` bits. -/
def rotr32 (x n : Nat) : Nat := rotl32 x ((32 - n) % 32)

/-- The 64 SHA-256 round constants. -/
def sha256K : Array Nat := #[
  1116352408, 1899447441, 3049323471, 3921009573,
  961987163, 1508970993, 2453635748, 2870763221,
  3624381080, 310598401, 607225278, 1426881987,
  1925078388, 2162078206, 2614888103, 3248222580,
  3835390401, 4022224774, 264347078, 604807628,
  770255983, 1249150122, 1555081692, 1996064986,
  2554220882, 2821834349, 2952996808, 3210313671,
  3336571891, 3584528711, 113926993, 338241895,
  666307205, 773529912, 1294757372, 1396182291,
  1695183700, 1986661051, 2177026350, 2456956037,
  2730485921, 2820302411, 3259730800, 3345764771,
  3516065817, 3600352804, 4094571909, 275423344,
  430227734, 506948616, 659060556, 883997877,
  958139571, 1322822218, 1537002063, 1747873779,
  1955562222, 2024104815, 2227730452, 2361852424,
  2428436474, 2756734187, 3204031479, 3329325298]

/-- Split a byte list into 32-bit big-endian words. -/
def beWords : List Nat → List Nat
  | b0 :: b1 :: b2 :: b3 :: rest =>
      (16777216 * b0 + 65536 * b1 + 256 * b2 + b3) :: beWords rest
  | _ => []

/-- Big-endian bytes of an `n`-byte value. -/
def beBytes (k x : Nat) : List Nat :=
  match k with
  | 0 => []
  | k + 1 => beBytes k (x / 256) ++ [x % 256]

/-- The SHA-256 message schedule extended to 64 words. -/
def sha256Schedule (w : Array Nat) (i : Nat) : Array Nat :=
  let s0 :=
    let x := w.getD (i - 15) 0
    Nat.xor (rotr32 x 7) (Nat.xor (rotr32 x 18) (x / 2 ^ 3))
  let s1 :=
    let x := w.getD (i - 2) 0
    Nat.xor (rotr32 x 17) (Nat.xor (rotr32 x 19) (x / 2 ^ 10))
  w.push (w32 (w.getD (i - 16) 0 + s0 + w.getD (i - 7) 0 + s1))

/-- One SHA-256 round on the eight-word working state. -/
def sha256Step (w : Array Nat) (st : Array Nat) (i : Nat) : Array Nat :=
  let a := st.getD 0 0
  let b := st.getD 1 0
  let c := st.getD 2 0
  let d := st.getD 3 0
  let e := st.getD 4 0
  let f := st.getD 5 0
  let g := st.getD 6 0
  let h := st.getD 7 0
  let s1 := Nat.xor (rotr32 e 6) (Nat.xor (rotr32 e 11) (rotr32 e 25))
  let ch := Nat.xor (Nat.land e f) (Nat.land (not32 e) g)
  let t1 := w32 (h + s1 + ch + sha256K.getD i 0 + w.getD i 0)
  let s0 := Nat.xor (rotr32 a 2) (Nat.xor (rotr32 a 13) (rotr32 a 22))
  let maj := Nat.xor (Nat.land a b) (Nat.xor (Nat.land a c) (Nat.land b c))
  let t2 := w32 (s0 + maj)
  #[w32 (t1 + t2), a, b, c, w32 (d + t1), e, f, g]

/-- SHA-256 compression of one 64-byte block into the running state. -/
def sha256Block (st : Array Nat) (block : List Nat) : Array Nat :=
  let w0 := (beWords block).toArray
  let w := (List.range 64).foldl
    (fun acc i => if i < 16 then acc else sha256Schedule acc i) w0
  let st1 := (List.range 64).foldl (sha256Step w) st
  (Array.range 8).map fun i => w32 (st.getD i 0 + st1.getD i 0)

/-- SHA-256 padding: `0x80`, zero-fill to 56 mod 64, 8 big-endian length
bytes. -/
def sha256Pad (msg : List Nat) : List Nat :=
  let padLen := (120 - (msg.length + 1) % 64) % 64
  msg ++ [128] ++ List.replicate padLen 0 ++ beBytes 8 (msg.length * 8)

/-- SHA-256 digest of a byte sequence, as 32 bytes. -/
def sha256 (msg : List Nat) : List Nat :=
  let padded := sha256Pad msg
  let final := (chunks64 (padded.length + 1) padded).foldl sha256Block
    #[1779033703, 3144134277, 1013904242, 2773480762,
      1359893119, 2600822924, 528734635, 1541459225]
  (final.toList.map (beBytes 4)).flatten

/-- HMAC-SHA256 as Go `hmac.New(sha256.New, key)` computes it: oversized
keys are hashed, short keys zero-padded to the 64-byte block. -/
def hmacSha256 (key msg : List Nat) : List Nat :=
  let k0 := if key.length > 64 then sha256 key else key
  let k := k0 ++ List.replicate (64 - k0.length) 0
  let ipad := k.map (Nat.xor 0x36)
  let opad := k.map (Nat.xor 0x5c)
  sha256 (opad ++ sha256 (ipad ++ msg))

end Crypto

namespace GoStr

/-- Go `strings.Contains(hay, needle)` over character lists. -/
def goContains (hay needle : List Char) : Bool :=
  needle.isPrefixOf hay ||
    match hay with
    | [] => false
    | _ :: t => goContains t needle

/-- Go `strings.ToLower` restricted to the ASCII range the filter's
keyword sets live in. -/
def toLower (s : String) : String := ⟨s.data.map Char.toLower⟩

/-- Substring test on strings (Go `strings.Contains`). -/
def strContains (hay needle : String) : Bool := goContains hay.data needle.data

/-- The split underlying Go `strings.SplitN(s, sep, 2)` for a non-empty
separator: the text before and after the first occurrence, or `none` when
the separator does not occur. -/
def splitFirst (pat : List Char) : List Char → Option (List Char × List Char)
  | [] => none
  | c :: rest =>
    if pat.isPrefixOf (c :: rest) then some ([], (c :: rest).drop pat.length)
    else (splitFirst pat rest).map fun p => (c :: p.1, p.2)

/-- Go `strings.SplitN(s, sep, 2)` for non-empty `sep`. -/
def goSplitN2 (sep : String) (s : String) : List String :=
  match splitFirst sep.data s.data with
  | none => [s]
  | some (a, b) => [⟨a⟩, ⟨b⟩]

/-- Go `strings.Split(s, sep)` for a one-character separator. -/
def goSplitChar (sep : Char) : List Char → List (List Char)
  | [] => [[]]
  | c :: rest =>
    if c = sep then [] :: goSplitChar sep rest
    else match goSplitChar sep rest with
      | [] => [[c]]
      | h :: t => (c :: h) :: t

end GoStr

namespace Safety

open GoStr

/-- `pkg/safety` keyword sets, verbatim from the source. -/
def adultKeywords : List String :=
  ["violence", "weapons", "drugs", "alcohol", "tobacco",
   "gambling", "hate", "discrimination", "self-harm",
   "explicit", "pornography", "sexual"]

def mediumBlockKeywords : List String :=
  ["suicide", "murder", "kill", "attack", "bomb",
   "hack", "steal", "fraud", "scam"]

def teenOnlyTopics : List String :=
  ["dating", "romance", "sex", "politics", "religion"]

def sensitiveTopics : List String :=
  ["dating", "romance", "sex", "politics", "religion", "death", "grief"]

def ambiguousPhrases : List String :=
  ["in my opinion", "some people believe", "it depends",
   "you should ask", "talk to your parents", "consult an adult"]

/-- `safety.Filter`. The source reads the clock through `time.Now()`;
the embedding passes the current year explicitly at each use site. -/
structure Filter where
  level : String
  birthYear : Int

/-- `Filter.isYoungUser`, at an explicit current year. -/
def isYoungUser (f : Filter) (currentYear : Int) : Bool :=
  if f.birthYear = 0 then false else currentYear - f.birthYear < 13

/-- `Filter.isTeenUser`, at an explicit current year. -/
def isTeenUser (f : Filter) (currentYear : Int) : Bool :=
  if f.birthYear = 0 then false
  else 13 ≤ currentYear - f.birthYear && currentYear - f.birthYear < 18

/-- `Filter.shouldBlock`. -/
def shouldBlock (f : Filter) : Bool := f.level != "off"

/-- Whether any keyword of the set occurs in the (already lowercased)
content. Each keyword loop in the source returns on the first hit with a
reason fixed per set, so a hit test per set captures it. -/
def hitsAny (kws : List String) (contentLower : String) : Bool :=
  kws.any fun kw => strContains contentLower kw

/-- `Filter.CheckContent`. -/
def checkContent (f : Filter) (currentYear : Int) (content : String) :
    Bool × String :=
  if !shouldBlock f then (false, "")
  else
    let contentLower := toLower content
    if f.level == "low" && hitsAny adultKeywords contentLower then
      (true, "content blocked by safety filter (low)")
    else if (f.level == "medium" || f.level == "high") &&
        (hitsAny adultKeywords contentLower ||
         hitsAny mediumBlockKeywords contentLower) then
      (true, "content blocked by safety filter (medium/high)")
    else if f.level == "high" && isYoungUser f currentYear &&
        hitsAny teenOnlyTopics contentLower then
      (true, "content requires parent approval (high safety for young user)")
    else (false, "")

/-- `safety.CheckResult`. -/
structure CheckResult where
  Safe : Bool
  Blocked : Bool
  Rewrite : Bool
  NeedsApproval : Bool
  Reason : String
  Original : String
  Rewritten : String
  BlockedMessage : String

/-- `Filter.getBlockedMessage`. -/
def getBlockedMessage (f : Filter) (currentYear : Int) : String :=
  if isYoungUser f currentYear then
    "I can't share that information with you. Ask a parent or guardian if you'd like to know more about this topic."
  else
    "This content has been filtered for safety. Please try a different topic."

/-- `Filter.needsLLMCheck`. -/
def needsLLMCheck (f : Filter) (response : String) : Bool :=
  let _ := f
  hitsAny ambiguousPhrases (toLower response)

/-- `Filter.CheckResponse`. -/
def checkResponse (f : Filter) (currentYear : Int) (response : String) :
    CheckResult :=
  let base : CheckResult :=
    { Safe := true, Blocked := false, Rewrite := false, NeedsApproval := false,
      Reason := "", Original := response, Rewritten := "", BlockedMessage := "" }
  if f.level == "off" then base
  else
    let (blocked, reason) := checkContent f currentYear response
    if blocked then
      { base with
          Safe := false, Blocked := true, Reason := reason,
          BlockedMessage := getBlockedMessage f currentYear }
    else if f.level == "high" && isYoungUser f currentYear &&
        hitsAny sensitiveTopics (toLower response) then
      { base with
          Safe := true, NeedsApproval := true,
          Reason := "Sensitive topic for young user - parent review recommended" }
    else if (f.level == "medium" || f.level == "high") &&
        needsLLMCheck f response then
      { base with
          NeedsApproval := true,
          Reason := "Content may need review - using LLM safety check recommended" }
    else base

/-- The claim-level reading of a keyword hit: some keyword of the set is
a substring of the lower-cased text. -/
def KeywordHit (kws : List String) (text : String) : Prop :=
  ∃ kw ∈ kws, List.IsInfix kw.data (GoStr.toLower text).data

instance (kws : List String) (text : String) : Decidable (KeywordHit kws text) := by
  unfold KeywordHit; infer_instance

end Safety

namespace Schedule

open GoStr

/-- Days of the week.  `goName` below matches the lowercased three-letter
prefix of Go's `time.Weekday.String()`. -/
inductive Weekday where
  | sun | mon | tue | wed | thu | fri | sat
deriving DecidableEq, Repr

/-- `strings.ToLower(t.Weekday().String()[:3])`. -/
def Weekday.goName : Weekday → String
  | .sun => "sun" | .mon => "mon" | .tue => "tue" | .wed => "wed"
  | .thu => "thu" | .fri => "fri" | .sat => "sat"

/-- A wall-clock instant already converted to the schedule's timezone:
the weekday plus `t.Hour()` and `t.Minute()`. -/
structure Clock where
  weekday : Weekday
  hour : Nat
  minute : Nat

/-- `config.HoursConfig` — the `hours` block of a schedule rule, with
`HH:MM` strings as configured. -/
structure HoursConfig where
  Start : String
  End : String
deriving DecidableEq

/-- `config.ScheduleRule`. -/
structure ScheduleRule where
  Days : List String
  Hours : Option HoursConfig
  Provider : String
  Model : String
deriving DecidableEq

/-- `config.ScheduleConfig`: ordered rules plus the default selection. -/
structure ScheduleConfig where
  Rules : List ScheduleRule
  DefaultProvider : String
  DefaultModel : String

/-- Go `time.Parse("15:04", s)` reduced to its result: the hour field
accepts one or two digits, the minute exactly two, hour `< 24` and
minute `< 60`, nothing trailing. -/
def parseHM (s : String) : Option (Nat × Nat) :=
  let valid (h m : Nat) : Option (Nat × Nat) :=
    if h < 24 && m < 60 then some (h, m) else none
  match s.data with
  | [h1, ':', m1, m2] =>
    if h1.isDigit && m1.isDigit && m2.isDigit then
      valid (h1.toNat - 48) ((m1.toNat - 48) * 10 + (m2.toNat - 48))
    else none
  | [h1, h2, ':', m1, m2] =>
    if h1.isDigit && h2.isDigit && m1.isDigit && m2.isDigit then
      valid ((h1.toNat - 48) * 10 + (h2.toNat - 48))
        ((m1.toNat - 48) * 10 + (m2.toNat - 48))
    else none
  | _ => none

/-- The day test inside `matchRule`'s loop body. -/
def dayMatch (days : List String) (wd : Weekday) : Bool :=
  days.any fun d0 =>
    let d := toLower d0
    d == wd.goName ||
    (d == "weekday" && !(wd.goName == "sat") && !(wd.goName == "sun")) ||
    (d == "weekend" && (wd.goName == "sat" || wd.goName == "sun"))

/-- `ScheduleProvider.matchRule`, the rule-scanning loop: each `continue`
in the source becomes a recursive call on the remaining rules, including
the two parse-error `continue`s. -/
def matchRule (rules : List ScheduleRule) (t : Clock) : Option ScheduleRule :=
  match rules with
  | [] => none
  | rule :: rest =>
    if rule.Days.length > 0 && !dayMatch rule.Days t.weekday then
      matchRule rest t
    else
      match rule.Hours with
      | none => some rule
      | some hrs =>
        let nowMins := t.hour * 60 + t.minute
        match parseHM hrs.Start with
        | none => matchRule rest t
        | some s =>
          match parseHM hrs.End with
          | none => matchRule rest t
          | some e =>
            let startMins := s.1 * 60 + s.2
            let endMins := e.1 * 60 + e.2
            if startMins ≤ endMins then
              if nowMins < startMins || decide (endMins ≤ nowMins) then
                matchRule rest t
              else some rule
            else
              if nowMins < startMins && decide (endMins ≤ nowMins) then
                matchRule rest t
              else some rule

/-- The provider/model selection of `ScheduleProvider.resolveProvider`
before it instantiates the provider: the matched rule's pair, else the
schedule default. -/
def resolveSelection (sched : ScheduleConfig) (t : Clock) : String × String :=
  match matchRule sched.Rules t with
  | some rule => (rule.Provider, rule.Model)
  | none => (sched.DefaultProvider, sched.DefaultModel)

/-- The days mon–fri, which the `weekday` alias covers. -/
def Weekday.isMonToFri : Weekday → Bool
  | .mon | .tue | .wed | .thu | .fri => true
  | _ => false

/-- The days sat/sun, which the `weekend` alias covers. -/
def Weekday.isSatOrSun : Weekday → Bool
  | .sat | .sun => true
  | _ => false

/-- The claim's day condition: empty day list, or some entry covering the
weekday, with `weekday` meaning mon–fri and `weekend` meaning sat/sun. -/
def specDayOk (rule : ScheduleRule) (wd : Weekday) : Bool :=
  rule.Days.isEmpty ||
    rule.Days.any fun d0 =>
      let d := toLower d0
      d == wd.goName ||
      (d == "weekday" && wd.isMonToFri) ||
      (d == "weekend" && wd.isSatOrSun)

/-- The claim's hour condition, on minutes of the day: absent hours always
match; for `start ≤ end` the rule matches iff `start ≤ now < end`; for
`start > end` (overnight) iff `now ≥ start ∨ now < end`. -/
def specHoursOk (rule : ScheduleRule) (t : Clock) : Bool :=
  match rule.Hours with
  | none => true
  | some hrs =>
    match parseHM hrs.Start with
    | none => false
    | some s =>
      match parseHM hrs.End with
      | none => false
      | some e =>
        let nowMins := t.hour * 60 + t.minute
        let startMins := s.1 * 60 + s.2
        let endMins := e.1 * 60 + e.2
        if startMins ≤ endMins then
          decide (startMins ≤ nowMins) && decide (nowMins < endMins)
        else
          decide (startMins ≤ nowMins) || decide (nowMins < endMins)

/-- The claim's rule predicate: both the day and the hour condition. -/
def specRuleMatches (t : Clock) (rule : ScheduleRule) : Bool :=
  specDayOk rule t.weekday && specHoursOk rule t

end Schedule

namespace Mcp

/-- `mcp.MCPToolDef`.  The JSON input schema takes no part in any claim;
it is carried as an opaque string so the catalog's verbatim copying is
still visible. -/
structure MCPToolDef where
  Name : String
  Description : String
  InputSchema : Option String
deriving DecidableEq

/-- `mcp.MCPServer`, the fields the tool catalog reads. -/
structure MCPServer where
  Name : String
  Connected : Bool
  Tools : List MCPToolDef
  WorkspaceAllowList : List String
  WorkspaceDenyList : List String
  ToolAllowList : List String
  ToolDenyList : List String
deriving DecidableEq

/-- `MCPManager.Servers` is a Go map keyed by server name; the embedding
takes the servers in some iteration order.  Claims about the catalog as a
set are order-independent. -/
structure MCPManager where
  Servers : List MCPServer

/-- `MCPServer.isToolAllowed`. -/
def isToolAllowed (s : MCPServer) (toolName : String) : Bool :=
  if s.ToolAllowList.length > 0 then
    s.ToolAllowList.any fun t => t == toolName
  else
    !(s.ToolDenyList.any fun t => t == toolName)

/-- `MCPServer.isWorkspaceAllowed`. -/
def isWorkspaceAllowed (s : MCPServer) (workspace : String) : Bool :=
  if s.WorkspaceAllowList.length > 0 then
    s.WorkspaceAllowList.any fun w => w == workspace
  else
    !(s.WorkspaceDenyList.any fun w => w == workspace)

/-- The per-server body shared by both catalog functions: allowed tools,
renamed with the `"<server>__<tool>"` prefix. -/
def serverCatalog (server : MCPServer) : List MCPToolDef :=
  server.Tools.filterMap fun tool =>
    if isToolAllowed server tool.Name then
      some { Name := server.Name ++ "__" ++ tool.Name,
             Description := tool.Description,
             InputSchema := tool.InputSchema }
    else none

/-- `MCPManager.GetAllTools`. -/
def getAllTools (m : MCPManager) : List MCPToolDef :=
  m.Servers.flatMap fun server =>
    if !server.Connected then [] else serverCatalog server

/-- `MCPManager.GetToolsForWorkspace`. -/
def getToolsForWorkspace (m : MCPManager) (workspace : String) : List MCPToolDef :=
  m.Servers.flatMap fun server =>
    if !server.Connected then []
    else if !isWorkspaceAllowed server workspace then []
    else serverCatalog server

/-- The routing split of `tools.MCPTool.Execute`:
`strings.SplitN(name, "__", 2)` and success only on two parts. -/
def executeRoute (name : String) : Option (String × String) :=
  match GoStr.splitFirst ['_', '_'] name.data with
  | none => none
  | some (a, b) => some (⟨a⟩, ⟨b⟩)

/-- The claim's allow/deny rule for tools: a non-empty allow-list is
authoritative (deny ignored), otherwise the deny-list applies. -/
def specToolAllowed (s : MCPServer) (n : String) : Prop :=
  (s.ToolAllowList ≠ [] ∧ n ∈ s.ToolAllowList) ∨
  (s.ToolAllowList = [] ∧ n ∉ s.ToolDenyList)

/-- The claim's allow/deny rule for workspaces, same shape. -/
def specWorkspaceAllowed (s : MCPServer) (w : String) : Prop :=
  (s.WorkspaceAllowList ≠ [] ∧ w ∈ s.WorkspaceAllowList) ∨
  (s.WorkspaceAllowList = [] ∧ w ∉ s.WorkspaceDenyList)

instance (s : MCPServer) (n : String) : Decidable (specToolAllowed s n) := by
  unfold specToolAllowed; infer_instance

instance (s : MCPServer) (w : String) : Decidable (specWorkspaceAllowed s w) := by
  unfold specWorkspaceAllowed; infer_instance

/-- A server name after which the `"__"` separator is recoverable: the
name neither contains `"__"` nor ends in `'_'`, stated as: `"__"` is not
an infix of the name with one `'_'` appended. -/
def SepSafe (name : String) : Prop :=
  ¬ List.IsInfix ['_', '_'] (name.data ++ ['_'])

instance (name : String) : Decidable (SepSafe name) := by
  unfold SepSafe; infer_instance

end Mcp

namespace Mailbox

/-- `mailbox.Message`.  `time.Time` is carried as an opaque integer; no
claim inspects it. -/
structure Message where
  ID : String
  From : String
  To : String
  Content : String
  MsgRead : Bool
  Timestamp : Int
deriving DecidableEq

/-- `MemoryStore.ListMessages`: the store map's values in iteration
order, run through the source's nested membership tests. -/
def listMessages (messages : List Message) (user : String) : List Message :=
  messages.filterMap fun msg =>
    if msg.To == user || msg.From == user then
      if msg.To == user then some msg else none
    else none

end Mailbox

namespace Qdrant

open GoStr

/-- Valid characters of a URL scheme after the first (RFC 3986, as
`net/url.getScheme` enforces). -/
def validSchemeChar (c : Char) : Bool :=
  c.isAlpha || c.isDigit || c = '+' || c = '-' || c = '.'

/-- A valid URL scheme: non-empty, starting with a letter. -/
def validScheme : List Char → Bool
  | [] => false
  | c :: rest => c.isAlpha && rest.all validSchemeChar

/-- Split an authority at its last colon, as `net/url.parseHost` locates
the port with `strings.LastIndexByte(host, ':')`. -/
def lastColonSplit (l : List Char) : List Char × Option (List Char) :=
  match splitFirst [':'] l.reverse with
  | none => (l, none)
  | some (revPort, revRest) => (revRest.reverse, some revPort.reverse)

/-- `net/url.Parse` reduced to the fragment `ParseAddress` consumes:
scheme (lowercased), `u.Hostname()` and `u.Port()` for addresses of the
authority form `scheme://host[:port][/...]`.  The port must be all digits
or the parse fails, exactly as `validOptionalPort` demands; userinfo,
IPv6 bracket hosts, percent-escapes and opaque (non-`//`) URLs are outside
the modelled fragment. -/
def goURLParse (raw : String) : Option (String × String × Option String) :=
  match splitFirst [':', '/', '/'] raw.data with
  | none => none
  | some (schemeChars, rest) =>
    if validScheme schemeChars then
      let scheme : String := ⟨schemeChars.map Char.toLower⟩
      let authority := rest.takeWhile fun c => c ≠ '/' && c ≠ '?' && c ≠ '#'
      match lastColonSplit authority with
      | (host, none) => some (scheme, ⟨host⟩, none)
      | (host, some port) =>
        if port.all Char.isDigit then some (scheme, ⟨host⟩, some ⟨port⟩)
        else none
    else none

/-- `fmt.Sscanf(s, "%d", &port)` reduced to its result: skip leading
spaces, optional sign, then a non-empty digit run. -/
def sscanfInt (l : List Char) : Option Int :=
  let digitsVal (d : List Char) : Option Nat :=
    let ds := d.takeWhile Char.isDigit
    if ds.isEmpty then none
    else some (ds.foldl (fun a c => a * 10 + (c.toNat - 48)) 0)
  let s1 := l.dropWhile fun c => c = ' ' || c = '\t' || c = '\n'
  match s1 with
  | '-' :: rest => (digitsVal rest).map fun n => -(n : Int)
  | '+' :: rest => (digitsVal rest).map fun n => (n : Int)
  | _ => (digitsVal s1).map fun n => (n : Int)

/-- `qdrant.ParseAddress`. -/
def parseAddress (rawURL : String) : String × Int × Bool :=
  if strContains rawURL "://" then
    match goURLParse rawURL with
    | some (scheme, host, portOpt) =>
      let port : Int :=
        match portOpt with
        | some p =>
          if p ≠ "" then
            if p = "6333" then 6334 else (sscanfInt p.data).getD 6334
          else 6334
        | none => 6334
      (host, port, scheme == "https")
    | none => (rawURL, 6334, false)
  else
    match goSplitChar ':' rawURL.data with
    | [h, p] =>
      (⟨h⟩,
       if (⟨p⟩ : String) = "6333" then 6334 else (sscanfInt p).getD 6334,
       false)
    | _ => (rawURL, 6334, false)

/-- A host component inside the modelled URL fragment: free of the
authority/port delimiters `':'`, `'/'`, `'?'`, `'#'`. -/
def PlainHost (host : String) : Prop :=
  ∀ c ∈ host.data, c ≠ ':' ∧ c ≠ '/' ∧ c ≠ '?' ∧ c ≠ '#'

instance (host : String) : Decidable (PlainHost host) := by
  unfold PlainHost; infer_instance

end Qdrant

namespace Memory

open GoStr

/-- `providers.Message`, the fields archival reads. -/
structure ProvMessage where
  Role : String
  Content : String

/-- Step 1 of `ArchiveSession`: concatenate the non-`system` messages as
`"<role>: <content>\n"`. -/
def sessionText (messages : List ProvMessage) : String :=
  String.join ((messages.filter fun m => !(m.Role == "system")).map
    fun m => m.Role ++ ": " ++ m.Content ++ "\n")

/-- The chunking loop of `ArchiveSession` from index `i`: slice a window
of `csz` code points, stop when the window reaches the end, else advance
by `stride`.  At the only call site `stride = csz - csz / 10 ≥ 1`; the
`stride = 0` branch marks where the Go loop would not terminate. -/
def chunkLoop (runes : List Char) (csz stride i : Nat) : List (List Char) :=
  let chunk := (runes.drop i).take csz
  if runes.length ≤ i + csz then [chunk]
  else if _h : stride = 0 then []
  else chunk :: chunkLoop runes csz stride (i + stride)
termination_by runes.length - i
decreasing_by
  simp only [not_le] at *
  omega

/-- Step 2 of `ArchiveSession`: sliding-window chunking over the rune
slice, defaulting a non-positive configured size to 4096 with 10%
overlap. -/
def chunkText (cfgChunkSize : Int) (text : String) : List String :=
  let csz : Nat := if cfgChunkSize ≤ 0 then 4096 else cfgChunkSize.toNat
  let overlap := csz / 10
  if text.data.length ≤ csz then [text]
  else (chunkLoop text.data csz (csz - overlap) 0).map fun c => ⟨c⟩

/-- `fmt.Sprintf("%s_%s_%d_%d", workspaceID, sessionID, timestamp, i)`. -/
def rawPointName (ws session : String) (ts : Int) (i : Nat) : String :=
  ws ++ "_" ++ session ++ "_" ++ toString ts ++ "_" ++ toString i

/-- `uuid.NewMD5(uuid.NameSpaceURL, []byte(rawID)).String()`. -/
def pointId (ws session : String) (ts : Int) (i : Nat) : String :=
  Crypto.uuidString
    (Crypto.uuidNewMD5 Crypto.nameSpaceURL
      (Crypto.utf8Bytes (rawPointName ws session ts i)))

/-- The payload stored with each chunk. -/
structure VectorPayload where
  workspace_id : String
  session_id : String
  content : String
  timestamp : Int
  chunk_index : Nat
  total_chunks : Nat
deriving DecidableEq

/-- `Manager.ArchiveSession` reduced to the points it upserts: the
embedder and vector store are I/O, so the observable write set is the
list of `(point id, payload)` pairs, in store order.  `nowNano` is the
`time.Now().UnixNano()` the source samples once per call. -/
def archiveRecords (cfgChunkSize : Int) (ws session : String)
    (messages : List ProvMessage) (nowNano : Int) :
    List (String × VectorPayload) :=
  let text := sessionText messages
  if text = "" then []
  else
    let chunks := chunkText cfgChunkSize text
    (List.range chunks.length).map fun i =>
      (pointId ws session nowNano i,
       { workspace_id := ws
         session_id := session
         content := chunks.getD i ""
         timestamp := nowNano / 1000000000
         chunk_index := i
         total_chunks := chunks.length })

end Memory

namespace Webhook

/-- The observable outcome of the `format=github` gate of
`webhookHandler`: either the request is forwarded to the processor or it
is rejected with an HTTP status. -/
inductive Outcome where
  | forwarded
  | rejected (status : Nat)
deriving DecidableEq

/-- The GitHub signature gate of `webhookHandler`: the body bytes are the
raw request body, the secret bytes are `[]byte(webhook.Secret)`, and
`hmac.Equal` on the two byte slices coincides with equality of the
strings they spell. -/
def githubGate (secret body : List Nat) (sigHeader : String) : Outcome :=
  if sigHeader == "" then .rejected 401
  else
    match GoStr.goSplitN2 "=" sigHeader with
    | [p0, p1] =>
      if !(p0 == "sha256") then .rejected 400
      else if p1 == Crypto.hexEncode (Crypto.hmacSha256 secret body) then
        .forwarded
      else .rejected 401
    | _ => .rejected 400

end Webhook

namespace GoStr

theorem goContains_infix_iff (hay needle : List Char) :
    goContains hay needle = true ↔ needle <:+: hay := by
  induction hay with
  | nil =>
    simp [goContains, List.isPrefixOf_iff_prefix, List.prefix_nil, List.infix_nil]
  | cons c t ih =>
    simp only [goContains, Bool.or_eq_true, List.isPrefixOf_iff_prefix, ih]
    exact (List.infix_cons_iff).symm

theorem splitFirst_cons_pos {pat rest : List Char} (c : Char)
    (h : pat.isPrefixOf (c :: rest) = true) :
    splitFirst pat (c :: rest) = some ([], (c :: rest).drop pat.length) := by
  simp [splitFirst, h]

theorem splitFirst_cons_neg {pat rest : List Char} (c : Char)
    (h : pat.isPrefixOf (c :: rest) = false) :
    splitFirst pat (c :: rest) =
      (splitFirst pat rest).map fun p => (c :: p.1, p.2) := by
  simp [splitFirst, h]

theorem splitFirst_append_of_notMem (p0 : Char) (pr s t : List Char)
    (hs : p0 ∉ s) :
    splitFirst (p0 :: pr) (s ++ (p0 :: pr) ++ t) = some (s, t) := by
  induction s with
  | nil =>
    have h1 : (p0 :: pr).isPrefixOf (p0 :: (pr ++ t)) = true :=
      List.isPrefixOf_iff_prefix.mpr (List.cons_append p0 pr t ▸
        List.prefix_append (p0 :: pr) t)
    rw [List.nil_append, List.cons_append, splitFirst_cons_pos p0 h1]
    simp [List.drop_left]
  | cons c s' ih =>
    have ihs := ih (fun h => hs (List.mem_cons_of_mem _ h))
    simp only [List.cons_append, List.append_assoc, List.nil_append] at ihs ⊢
    have hc : (p0 == c) = false := by
      simp only [beq_eq_false_iff_ne, ne_eq]
      exact fun h => hs (h ▸ List.mem_cons_self _ _)
    have hpre : (p0 :: pr).isPrefixOf (c :: (s' ++ p0 :: (pr ++ t))) = false := by
      simp [List.isPrefixOf, hc]
    rw [splitFirst_cons_neg c hpre, ihs]
    rfl

theorem splitFirst_sep_append (s t : List Char)
    (hs : ¬ List.IsInfix ['_', '_'] (s ++ ['_'])) :
    splitFirst ['_', '_'] (s ++ ['_', '_'] ++ t) = some (s, t) := by
  induction s with
  | nil =>
    simp [splitFirst, List.isPrefixOf]
  | cons c s' ih =>
    have htail : ¬ List.IsInfix ['_', '_'] (s' ++ ['_']) := fun h =>
      hs (h.trans (List.suffix_cons c _).isInfix)
    have ihs := ih htail
    simp only [List.cons_append, List.append_assoc, List.nil_append] at ihs ⊢
    have step : ['_', '_'].isPrefixOf (c :: (s' ++ '_' :: '_' :: t)) = false := by
      by_cases hc : c = '_'
      · subst hc
        cases s' with
        | nil => exact absurd (List.infix_refl _) hs
        | cons c' s'' =>
          by_cases hc' : c' = '_'
          · subst hc'
            exact absurd ⟨[], s'' ++ ['_'], rfl⟩ hs
          · have : ('_' == c') = false := by
              simp only [beq_eq_false_iff_ne, ne_eq]
              exact fun h => hc' h.symm
            simp [List.isPrefixOf, this]
      · have : (c == '_') = false := by
          simp only [beq_eq_false_iff_ne, ne_eq]; exact hc
        simp only [List.isPrefixOf, Bool.and_eq_false_iff]
        left
        simpa [BEq.comm] using this
    rw [splitFirst_cons_neg c step, ihs]
    rfl

/-- Under separator-safe left parts, `"<s>__<t>"` determines `s` and `t`. -/
theorem sep_append_inj {s1 t1 s2 t2 : List Char}
    (h1 : ¬ List.IsInfix ['_', '_'] (s1 ++ ['_']))
    (h2 : ¬ List.IsInfix ['_', '_'] (s2 ++ ['_']))
    (heq : s1 ++ ['_', '_'] ++ t1 = s2 ++ ['_', '_'] ++ t2) :
    s1 = s2 ∧ t1 = t2 := by
  have e1 := splitFirst_sep_append s1 t1 h1
  have e2 := splitFirst_sep_append s2 t2 h2
  rw [heq, e2] at e1
  simpa using e1.symm

end GoStr

namespace Safety

theorem hitsAny_iff (kws : List String) (text : String) :
    hitsAny kws (GoStr.toLower text) = true ↔ KeywordHit kws text := by
  simp [hitsAny, GoStr.strContains, List.any_eq_true,
    GoStr.goContains_infix_iff, KeywordHit]

theorem checkContent_off (f : Filter) (cy : Int) (text : String)
    (h : f.level = "off") : (checkContent f cy text).1 = false := by
  simp [checkContent, shouldBlock, h]

theorem isYoungUser_true (f : Filter) (cy : Int) (h0 : f.birthYear ≠ 0)
    (hlt : cy - f.birthYear < 13) : isYoungUser f cy = true := by
  simp [isYoungUser, h0, hlt]

theorem isYoungUser_false (f : Filter) (cy : Int)
    (h : f.birthYear = 0 ∨ 13 ≤ cy - f.birthYear) :
    isYoungUser f cy = false := by
  rcases h with h | h <;> simp [isYoungUser, h]

end Safety

/-- **C4.** `Filter.CheckContent` blocks nothing at level `off`; at level
`low` it blocks exactly the texts whose lowercase form contains an
adult-set keyword; at `medium`, and at `high` for a user not younger than
13 (current year minus birth year, with 0 meaning no birth year), exactly
the adult-set or dangerous-set hits; and at `high` for a user younger
than 13 additionally the teen-topic hits. -/
theorem c4_checkContent_levels (f : Safety.Filter) (cy : Int) (text : String) :
    (f.level = "off" → (Safety.checkContent f cy text).1 = false) ∧
    (f.level = "low" →
      ((Safety.checkContent f cy text).1 = true ↔
        Safety.KeywordHit Safety.adultKeywords text)) ∧
    (f.level = "medium" →
      ((Safety.checkContent f cy text).1 = true ↔
        (Safety.KeywordHit Safety.adultKeywords text ∨
         Safety.KeywordHit Safety.mediumBlockKeywords text))) ∧
    (f.level = "high" → (f.birthYear = 0 ∨ 13 ≤ cy - f.birthYear) →
      ((Safety.checkContent f cy text).1 = true ↔
        (Safety.KeywordHit Safety.adultKeywords text ∨
         Safety.KeywordHit Safety.mediumBlockKeywords text))) ∧
    (f.level = "high" → f.birthYear ≠ 0 → cy - f.birthYear < 13 →
      ((Safety.checkContent f cy text).1 = true ↔
        (Safety.KeywordHit Safety.adultKeywords text ∨
         Safety.KeywordHit Safety.mediumBlockKeywords text ∨
         Safety.KeywordHit Safety.teenOnlyTopics text))) := by
  refine ⟨Safety.checkContent_off f cy text, ?_, ?_, ?_, ?_⟩
  · intro h
    rw [← Safety.hitsAny_iff]
    cases hA : Safety.hitsAny Safety.adultKeywords (GoStr.toLower text) <;>
      simp [Safety.checkContent, Safety.shouldBlock, h, hA]
  · intro h
    rw [← Safety.hitsAny_iff, ← Safety.hitsAny_iff]
    cases hA : Safety.hitsAny Safety.adultKeywords (GoStr.toLower text) <;>
      cases hD : Safety.hitsAny Safety.mediumBlockKeywords (GoStr.toLower text) <;>
        simp [Safety.checkContent, Safety.shouldBlock, h, hA, hD]
  · intro h hold
    have hy := Safety.isYoungUser_false f cy hold
    rw [← Safety.hitsAny_iff, ← Safety.hitsAny_iff]
    cases hA : Safety.hitsAny Safety.adultKeywords (GoStr.toLower text) <;>
      cases hD : Safety.hitsAny Safety.mediumBlockKeywords (GoStr.toLower text) <;>
        simp [Safety.checkContent, Safety.shouldBlock, h, hA, hD, hy]
  · intro h h0 hlt
    have hy := Safety.isYoungUser_true f cy h0 hlt
    rw [← Safety.hitsAny_iff, ← Safety.hitsAny_iff, ← Safety.hitsAny_iff]
    cases hA : Safety.hitsAny Safety.adultKeywords (GoStr.toLower text) <;>
      cases hD : Safety.hitsAny Safety.mediumBlockKeywords (GoStr.toLower text) <;>
        cases hT : Safety.hitsAny Safety.teenOnlyTopics (GoStr.toLower text) <;>
          simp [Safety.checkContent, Safety.shouldBlock, h, hA, hD, hT, hy]

/-- Witness for C4, at the safety package's own test rows: level `low`
blocks `"teach me about weapons"` (spec scenario 1) and level `high` for a
user born 2015 (age 11 in 2026) blocks `"dating advice"`. -/
theorem c4_witness :
    (Safety.checkContent ⟨"low", 1980⟩ 2026 "teach me about weapons").1 = true ∧
    (Safety.checkContent ⟨"high", 2015⟩ 2026 "dating advice").1 = true := by
  constructor
  · exact ((c4_checkContent_levels ⟨"low", 1980⟩ 2026
      "teach me about weapons").2.1 rfl).mpr (by decide)
  · exact ((c4_checkContent_levels ⟨"high", 2015⟩ 2026
      "dating advice").2.2.2.2 rfl (by decide) (by decide)).mpr (by decide)

/-- **C5 counterexample.** At level `high` with a young user (born 2015,
current year 2026), the response `"dating"` hits the sensitive-topic set,
yet `CheckResponse` returns it blocked with `Safe = false` and
`NeedsApproval = false` — `CheckContent` fires first — contradicting the
claim that any sensitive-set hit yields `NeedsApproval = true` with
`Safe = true`. -/
theorem c5_counterexample :
    Safety.KeywordHit Safety.sensitiveTopics "dating" ∧
    (Safety.checkResponse ⟨"high", 2015⟩ 2026 "dating").NeedsApproval = false ∧
    (Safety.checkResponse ⟨"high", 2015⟩ 2026 "dating").Safe = false ∧
    (Safety.checkResponse ⟨"high", 2015⟩ 2026 "dating").Blocked = true := by
  exact ⟨by decide, by decide, by decide, by decide⟩

/-- **C5 (amended).** `Filter.CheckResponse` first applies `CheckContent`,
and when that blocks, the result has `Safe = false`, `Blocked = true` and
a non-empty `BlockedMessage`; at level `high` with a young user, a hit of
the sensitive-topic set in a response that `CheckContent` does not block
yields `NeedsApproval = true` while leaving `Safe = true` (hits of
dating/romance/sex/politics/religion are already blocked by
`CheckContent`, so only the remaining sensitive topics — death, grief —
can reach the approval path). -/
theorem c5_checkResponse (f : Safety.Filter) (cy : Int) (response : String) :
    ((Safety.checkContent f cy response).1 = true →
      (Safety.checkResponse f cy response).Safe = false ∧
      (Safety.checkResponse f cy response).Blocked = true ∧
      (Safety.checkResponse f cy response).BlockedMessage ≠ "") ∧
    (f.level = "high" → f.birthYear ≠ 0 → cy - f.birthYear < 13 →
      (Safety.checkContent f cy response).1 = false →
      Safety.KeywordHit Safety.sensitiveTopics response →
      (Safety.checkResponse f cy response).NeedsApproval = true ∧
      (Safety.checkResponse f cy response).Safe = true) := by
  constructor
  · intro h
    have hoff : ¬ f.level = "off" := fun hl =>
      by rw [Safety.checkContent_off f cy response hl] at h; cases h
    rcases hx : Safety.checkContent f cy response with ⟨b, rs⟩
    rw [hx] at h
    simp only at h
    subst h
    refine ⟨?_, ?_, ?_⟩
    · simp [Safety.checkResponse, hoff, hx]
    · simp [Safety.checkResponse, hoff, hx]
    · simp [Safety.checkResponse, hoff, hx, Safety.getBlockedMessage]
      split <;> simp
  · intro hl h0 hlt hnb hhit
    have hy := Safety.isYoungUser_true f cy h0 hlt
    have hS : Safety.hitsAny Safety.sensitiveTopics (GoStr.toLower response) = true :=
      (Safety.hitsAny_iff _ _).mpr hhit
    rcases hx : Safety.checkContent f cy response with ⟨b, rs⟩
    rw [hx] at hnb
    simp only at hnb
    subst hnb
    constructor <;> simp [Safety.checkResponse, hl, hx, hy, hS]

/-- Witness for C5 (amended): at high/young, `"grief is hard"` passes
`CheckContent` but is flagged for parental review with `Safe = true`. -/
theorem c5_witness :
    (Safety.checkResponse ⟨"high", 2015⟩ 2026 "grief is hard").NeedsApproval = true ∧
    (Safety.checkResponse ⟨"high", 2015⟩ 2026 "grief is hard").Safe = true :=
  (c5_checkResponse ⟨"high", 2015⟩ 2026 "grief is hard").2
    rfl (by decide) (by decide) (by decide) (by decide)

namespace Schedule

theorem specDayOk_eq (rule : ScheduleRule) (wd : Weekday) :
    specDayOk rule wd = (rule.Days.isEmpty || dayMatch rule.Days wd) := by
  suffices h : dayMatch rule.Days wd =
      rule.Days.any (fun d0 =>
        let d := GoStr.toLower d0
        d == wd.goName ||
        (d == "weekday" && wd.isMonToFri) ||
        (d == "weekend" && wd.isSatOrSun)) by
    rw [specDayOk, h]
  unfold dayMatch
  congr 1
  funext d0
  cases wd <;>
    simp [Weekday.goName, Weekday.isMonToFri, Weekday.isSatOrSun]

theorem matchRule_cons (rule : ScheduleRule) (rest : List ScheduleRule)
    (t : Clock) :
    matchRule (rule :: rest) t =
      if specRuleMatches t rule then some rule else matchRule rest t := by
  have hguard : (decide (rule.Days.length > 0) && !dayMatch rule.Days t.weekday) =
      !specDayOk rule t.weekday := by
    rw [specDayOk_eq]
    cases rule.Days <;> simp
  cases hd : specDayOk rule t.weekday with
  | false =>
    have hg : (decide (rule.Days.length > 0) && !dayMatch rule.Days t.weekday) = true := by
      rw [hguard, hd]; rfl
    rw [matchRule, hg]
    have hm : specRuleMatches t rule = false := by
      unfold specRuleMatches
      simp [hd]
    simp [hm]
  | true =>
    have hg : (decide (rule.Days.length > 0) && !dayMatch rule.Days t.weekday) = false := by
      rw [hguard, hd]; rfl
    rw [matchRule, hg]
    simp only [Bool.false_eq_true, if_false]
    unfold specRuleMatches specHoursOk
    rw [hd]
    cases hH : rule.Hours with
    | none => simp
    | some hrs =>
      simp only
      set o1 := parseHM hrs.Start with h1
      clear_value o1
      cases o1 with
      | none => simp only [← h1]; simp
      | some s =>
        simp only [← h1]
        set o2 := parseHM hrs.End with h2
        clear_value o2
        cases o2 with
        | none => simp only [← h2]; simp
        | some e =>
          simp only [← h2]
          simp only [Bool.true_and]
          by_cases hse : s.1 * 60 + s.2 ≤ e.1 * 60 + e.2 <;>
            [simp only [if_pos hse]; simp only [if_neg hse]] <;>
              split_ifs <;>
                first
                  | rfl
                  | (simp only [Bool.or_eq_true, Bool.and_eq_true,
                      decide_eq_true_eq, Bool.not_eq_true] at *; omega)

theorem matchRule_eq_find (rules : List ScheduleRule) (t : Clock) :
    matchRule rules t = rules.find? (specRuleMatches t) := by
  induction rules with
  | nil => rfl
  | cons rule rest ih =>
    by_cases h : specRuleMatches t rule
    · rw [matchRule_cons, if_pos h, List.find?_cons_of_pos _ h]
    · rw [matchRule_cons, if_neg h,
        List.find?_cons_of_neg _ (by simpa using h), ih]

end Schedule

/-- **C3.** `matchRule` returns the first configured rule whose day list
is empty or covers `weekday(t)` (with the `weekday`/`weekend` aliases)
and whose hours are absent or contain `t` in minutes of the day — same-day
ranges as `start ≤ t < end`, overnight ranges as `t ≥ start ∨ t < end` —
and when no rule matches, the schedule's default provider/model is
selected. -/
theorem c3_matchRule_first_spec (sched : Schedule.ScheduleConfig)
    (t : Schedule.Clock) :
    Schedule.matchRule sched.Rules t =
      sched.Rules.find? (Schedule.specRuleMatches t) ∧
    (Schedule.matchRule sched.Rules t = none →
      Schedule.resolveSelection sched t =
        (sched.DefaultProvider, sched.DefaultModel)) :=
  ⟨Schedule.matchRule_eq_find sched.Rules t,
   fun h => by simp [Schedule.resolveSelection, h]⟩

/-- Witness for C3, at the spec's literal scenarios: the weekday 09:00–17:00
rule matches Mon 10:00 and routes to `p2/m2`; on Sat 10:00 nothing matches
and the default `p1/m1` is selected; the overnight 22:00–06:00 rule
matches 05:00. -/
theorem c3_witness :
    Schedule.resolveSelection
        ⟨[⟨["weekday"], some ⟨"09:00", "17:00"⟩, "p2", "m2"⟩], "p1", "m1"⟩
        ⟨.mon, 10, 0⟩ = ("p2", "m2") ∧
    Schedule.resolveSelection
        ⟨[⟨["weekday"], some ⟨"09:00", "17:00"⟩, "p2", "m2"⟩], "p1", "m1"⟩
        ⟨.sat, 10, 0⟩ = ("p1", "m1") ∧
    Schedule.matchRule [⟨[], some ⟨"22:00", "06:00"⟩, "p3", "m3"⟩]
        ⟨.tue, 5, 0⟩ =
      List.find? (Schedule.specRuleMatches ⟨.tue, 5, 0⟩)
        [⟨[], some ⟨"22:00", "06:00"⟩, "p3", "m3"⟩] := by
  refine ⟨by decide, ?_, ?_⟩
  · exact (c3_matchRule_first_spec
      ⟨[⟨["weekday"], some ⟨"09:00", "17:00"⟩, "p2", "m2"⟩], "p1", "m1"⟩
      ⟨.sat, 10, 0⟩).2 (by decide)
  · exact (c3_matchRule_first_spec ⟨[⟨[], some ⟨"22:00", "06:00"⟩, "p3", "m3"⟩],
      "px", "mx"⟩ ⟨.tue, 5, 0⟩).1

namespace Mcp

theorem isToolAllowed_iff (s : MCPServer) (n : String) :
    isToolAllowed s n = true ↔ specToolAllowed s n := by
  unfold isToolAllowed specToolAllowed
  cases hA : s.ToolAllowList with
  | nil =>
    simp [List.any_eq_true]
    exact ⟨fun h hn => h n hn rfl, fun h x hx he => h (he ▸ hx)⟩
  | cons a as =>
    simp [List.any_eq_true]
    exact or_congr eq_comm Iff.rfl

theorem isWorkspaceAllowed_iff (s : MCPServer) (w : String) :
    isWorkspaceAllowed s w = true ↔ specWorkspaceAllowed s w := by
  unfold isWorkspaceAllowed specWorkspaceAllowed
  cases hA : s.WorkspaceAllowList with
  | nil =>
    simp [List.any_eq_true]
    exact ⟨fun h hn => h w hn rfl, fun h x hx he => h (he ▸ hx)⟩
  | cons a as =>
    simp [List.any_eq_true]
    exact or_congr eq_comm Iff.rfl

theorem mem_serverCatalog {s : MCPServer} {td : MCPToolDef} :
    td ∈ serverCatalog s ↔
      ∃ tool ∈ s.Tools, isToolAllowed s tool.Name = true ∧
        td = ⟨s.Name ++ "__" ++ tool.Name, tool.Description, tool.InputSchema⟩ := by
  unfold serverCatalog
  rw [List.mem_filterMap]
  constructor
  · rintro ⟨tool, htool, heq⟩
    by_cases ha : isToolAllowed s tool.Name = true
    · rw [if_pos ha] at heq
      exact ⟨tool, htool, ha, (Option.some_inj.mp heq).symm⟩
    · rw [if_neg ha] at heq
      cases heq
  · rintro ⟨tool, htool, ha, heq⟩
    exact ⟨tool, htool, by rw [if_pos ha, heq]⟩

theorem executeRoute_prefix (s t : String) (hs : SepSafe s) :
    executeRoute (s ++ "__" ++ t) = some (s, t) := by
  unfold executeRoute
  have hd : (s ++ "__" ++ t).data = s.data ++ ['_', '_'] ++ t.data := by
    simp [String.data_append]
  rw [hd, GoStr.splitFirst_sep_append _ _ hs]

end Mcp

/-- **C1.** Every tool emitted by `GetAllTools` comes from a `Connected`
server and an advertised tool whose original name passes the server's
allow/deny rule (non-empty allow-list authoritative, else deny-list), and
carries the `"<server>__<tool>"` name; `GetToolsForWorkspace` additionally
requires the workspace to pass the server's workspace allow/deny rule. -/
theorem c1_catalog_invariant (m : Mcp.MCPManager) (w : String)
    (td : Mcp.MCPToolDef) :
    (td ∈ Mcp.getAllTools m →
      ∃ s ∈ m.Servers, s.Connected = true ∧
        ∃ tool ∈ s.Tools, Mcp.specToolAllowed s tool.Name ∧
          td.Name = s.Name ++ "__" ++ tool.Name) ∧
    (td ∈ Mcp.getToolsForWorkspace m w →
      ∃ s ∈ m.Servers, s.Connected = true ∧ Mcp.specWorkspaceAllowed s w ∧
        ∃ tool ∈ s.Tools, Mcp.specToolAllowed s tool.Name ∧
          td.Name = s.Name ++ "__" ++ tool.Name) := by
  constructor
  · intro h
    simp only [Mcp.getAllTools, List.mem_flatMap] at h
    obtain ⟨s, hs, hmem⟩ := h
    cases hc : s.Connected with
    | false => rw [hc] at hmem; simp at hmem
    | true =>
      rw [hc] at hmem
      simp only [Bool.not_true, Bool.false_eq_true, if_false] at hmem
      obtain ⟨tool, htool, ha, heq⟩ := Mcp.mem_serverCatalog.mp hmem
      exact ⟨s, hs, hc, tool, htool, (Mcp.isToolAllowed_iff s _).mp ha,
        by rw [heq]⟩
  · intro h
    simp only [Mcp.getToolsForWorkspace, List.mem_flatMap] at h
    obtain ⟨s, hs, hmem⟩ := h
    cases hc : s.Connected with
    | false => rw [hc] at hmem; simp at hmem
    | true =>
      rw [hc] at hmem
      simp only [Bool.not_true, Bool.false_eq_true, if_false] at hmem
      cases hw : Mcp.isWorkspaceAllowed s w with
      | false => rw [hw] at hmem; simp at hmem
      | true =>
        rw [hw] at hmem
        simp only [Bool.not_true, Bool.false_eq_true, if_false] at hmem
        obtain ⟨tool, htool, ha, heq⟩ := Mcp.mem_serverCatalog.mp hmem
        exact ⟨s, hs, hc, (Mcp.isWorkspaceAllowed_iff s w).mp hw, tool, htool,
          (Mcp.isToolAllowed_iff s _).mp ha, by rw [heq]⟩

/-- Witness for C1 at the spec's literal scenarios 4 and 5: server `fs`
denies `write_file`, so `fs__read_file` in the catalog traces back to a
connected server and an allowed tool; and for workspace `w2`, a tool of
the unrestricted server `b` is emitted while the `w1`-only server is not
consulted. -/
theorem c1_witness :
    (∃ s ∈ ([⟨"fs", true, [⟨"read_file", "", none⟩, ⟨"write_file", "", none⟩],
        [], [], [], ["write_file"]⟩] : List Mcp.MCPServer),
      s.Connected = true ∧
      ∃ tool ∈ s.Tools, Mcp.specToolAllowed s tool.Name ∧
        ("fs__read_file" : String) = s.Name ++ "__" ++ tool.Name) ∧
    (∃ s ∈ ([⟨"a", true, [⟨"t", "", none⟩], ["w1"], [], [], []⟩,
        ⟨"b", true, [⟨"t", "", none⟩], [], [], [], []⟩] : List Mcp.MCPServer),
      s.Connected = true ∧ Mcp.specWorkspaceAllowed s "w2" ∧
      ∃ tool ∈ s.Tools, Mcp.specToolAllowed s tool.Name ∧
        ("b__t" : String) = s.Name ++ "__" ++ tool.Name) :=
  ⟨(c1_catalog_invariant ⟨[⟨"fs", true, [⟨"read_file", "", none⟩,
      ⟨"write_file", "", none⟩], [], [], [], ["write_file"]⟩]⟩ "w1"
      ⟨"fs__read_file", "", none⟩).1 (by decide),
   (c1_catalog_invariant ⟨[⟨"a", true, [⟨"t", "", none⟩], ["w1"], [], [], []⟩,
      ⟨"b", true, [⟨"t", "", none⟩], [], [], [], []⟩]⟩ "w2"
      ⟨"b__t", "", none⟩).2 (by decide)⟩

/-- **C7 counterexample.** Connected servers named `"a"` (advertising tool
`"b__c"`) and `"a__b"` (advertising `"c"`) have pairwise-distinct server
names and per-server distinct tool names, yet both emit the catalog name
`"a__b__c"`, so the catalog names are not pairwise distinct; splitting
that name at its first `"__"` also fails to recover server `"a__b"` and
tool `"c"`. -/
theorem c7_counterexample :
    (([⟨"a", true, [⟨"b__c", "", none⟩], [], [], [], []⟩,
       ⟨"a__b", true, [⟨"c", "", none⟩], [], [], [], []⟩] :
        List Mcp.MCPServer).map Mcp.MCPServer.Name).Nodup ∧
    (∀ s ∈ ([⟨"a", true, [⟨"b__c", "", none⟩], [], [], [], []⟩,
       ⟨"a__b", true, [⟨"c", "", none⟩], [], [], [], []⟩] :
        List Mcp.MCPServer), (s.Tools.map Mcp.MCPToolDef.Name).Nodup) ∧
    ¬ ((Mcp.getAllTools ⟨[⟨"a", true, [⟨"b__c", "", none⟩], [], [], [], []⟩,
       ⟨"a__b", true, [⟨"c", "", none⟩], [], [], [], []⟩]⟩).map
        Mcp.MCPToolDef.Name).Nodup ∧
    Mcp.executeRoute ("a__b" ++ "__" ++ "c") ≠ some ("a__b", "c") := by
  decide

namespace Mcp

theorem prefix_name_inj {s1 s2 t1 t2 : String} (h1 : SepSafe s1)
    (h2 : SepSafe s2) (h : s1 ++ "__" ++ t1 = s2 ++ "__" ++ t2) :
    s1 = s2 ∧ t1 = t2 := by
  have hd := congrArg String.data h
  simp only [String.data_append] at hd
  obtain ⟨e1, e2⟩ := GoStr.sep_append_inj h1 h2 hd
  exact ⟨String.ext e1, String.ext e2⟩

theorem serverCatalog_names (s : MCPServer) :
    (serverCatalog s).map MCPToolDef.Name =
      (s.Tools.map MCPToolDef.Name).filterMap
        (fun n => if isToolAllowed s n then some (s.Name ++ "__" ++ n)
          else none) := by
  rw [List.filterMap_map]
  unfold serverCatalog
  rw [List.map_filterMap]
  congr 1
  funext tool
  by_cases h : isToolAllowed s tool.Name = true <;>
    simp [h, Function.comp]

theorem serverCatalog_names_nodup (s : MCPServer)
    (ht : (s.Tools.map MCPToolDef.Name).Nodup) :
    ((serverCatalog s).map MCPToolDef.Name).Nodup := by
  rw [serverCatalog_names]
  refine List.Nodup.filterMap ?_ ht
  intro a a' b hb hb'
  by_cases ha : isToolAllowed s a = true
  · rw [if_pos ha] at hb
    by_cases ha' : isToolAllowed s a' = true
    · rw [if_pos ha'] at hb'
      have hba := Option.mem_some_iff.mp hb
      have hba' := Option.mem_some_iff.mp hb'
      have heq : s.Name ++ "__" ++ a = s.Name ++ "__" ++ a' := by
        rw [hba, hba']
      have hd := congrArg String.data heq
      simp only [String.data_append] at hd
      exact String.ext (List.append_cancel_left hd)
    · rw [if_neg ha'] at hb'
      cases hb'
  · rw [if_neg ha] at hb
    cases hb

theorem mem_catalog_names {s : MCPServer} {x : String}
    (hx : x ∈ (serverCatalog s).map MCPToolDef.Name) :
    ∃ n, x = s.Name ++ "__" ++ n := by
  rw [serverCatalog_names, List.mem_filterMap] at hx
  obtain ⟨n, _, hn⟩ := hx
  by_cases ha : isToolAllowed s n = true
  · rw [if_pos ha] at hn
    exact ⟨n, (Option.some_inj.mp hn).symm⟩
  · rw [if_neg ha] at hn
    cases hn

end Mcp

/-- **C7 (amended).** Catalog names are pairwise distinct — and splitting
an emitted name at its first `"__"` (as `MCPTool.Execute` routes) recovers
the server and original tool name — for every manager state in which each
server's advertised tool names are distinct **and the server names are
pairwise distinct (the manager's map keys them by name), contain no
`"__"`, and do not end in `"_"`**; without the added server-name
condition the prefixing is ambiguous, as the counterexample shows. -/
theorem c7_catalog_names_unique (m : Mcp.MCPManager)
    (hnames : (m.Servers.map Mcp.MCPServer.Name).Nodup)
    (hsafe : ∀ s ∈ m.Servers, Mcp.SepSafe s.Name)
    (htools : ∀ s ∈ m.Servers, (s.Tools.map Mcp.MCPToolDef.Name).Nodup) :
    ((Mcp.getAllTools m).map Mcp.MCPToolDef.Name).Nodup ∧
    ∀ s ∈ m.Servers, ∀ tool ∈ s.Tools,
      Mcp.executeRoute (s.Name ++ "__" ++ tool.Name) =
        some (s.Name, tool.Name) := by
  constructor
  · rw [Mcp.getAllTools, List.map_flatMap, List.nodup_flatMap]
    constructor
    · intro s hs
      cases hc : s.Connected with
      | false => simp
      | true =>
        simp only [Bool.not_true, Bool.false_eq_true, if_false]
        exact Mcp.serverCatalog_names_nodup s (htools s hs)
    · have hp : m.Servers.Pairwise (fun s1 s2 => s1.Name ≠ s2.Name) :=
        List.pairwise_map.mp hnames
      refine List.Pairwise.imp_of_mem ?_ hp
      intro s1 s2 h1 h2 hne
      simp only [Function.onFun]
      intro x hx1 hx2
      cases hc1 : s1.Connected with
      | false => rw [hc1] at hx1; simp at hx1
      | true =>
        rw [hc1] at hx1
        simp only [Bool.not_true, Bool.false_eq_true, if_false] at hx1
        cases hc2 : s2.Connected with
        | false => rw [hc2] at hx2; simp at hx2
        | true =>
          rw [hc2] at hx2
          simp only [Bool.not_true, Bool.false_eq_true, if_false] at hx2
          obtain ⟨n1, he1⟩ := Mcp.mem_catalog_names hx1
          obtain ⟨n2, he2⟩ := Mcp.mem_catalog_names hx2
          exact hne (Mcp.prefix_name_inj (hsafe s1 h1) (hsafe s2 h2)
            (he1.symm.trans he2)).1
  · intro s hs tool _
    exact Mcp.executeRoute_prefix s.Name tool.Name (hsafe s hs)

/-- Witness for C7 (amended): the scenario-4 manager — `fs` and `db` both
advertising `read_file`, `fs` denying `write_file` — satisfies the
name conditions, so its catalog names are distinct and `Execute`'s split
recovers `("fs", "read_file")`. -/
theorem c7_witness :
    ((Mcp.getAllTools ⟨[⟨"fs", true, [⟨"read_file", "", none⟩,
        ⟨"write_file", "", none⟩], [], [], [], ["write_file"]⟩,
      ⟨"db", true, [⟨"read_file", "", none⟩], [], [], [], []⟩]⟩).map
        Mcp.MCPToolDef.Name).Nodup ∧
    Mcp.executeRoute ("fs" ++ "__" ++ "read_file") =
      some ("fs", "read_file") := by
  have h := c7_catalog_names_unique ⟨[⟨"fs", true, [⟨"read_file", "", none⟩,
      ⟨"write_file", "", none⟩], [], [], [], ["write_file"]⟩,
    ⟨"db", true, [⟨"read_file", "", none⟩], [], [], [], []⟩]⟩
    (by decide) (by decide) (by decide)
  exact ⟨h.1, h.2 ⟨"fs", true, [⟨"read_file", "", none⟩,
    ⟨"write_file", "", none⟩], [], [], [], ["write_file"]⟩ (by decide)
    ⟨"read_file", "", none⟩ (by decide)⟩

/-- **C9.** `MemoryStore.ListMessages(user)` returns exactly the stored
messages whose `To` field equals `user`: the result is the filter of the
store on `To == user`, so every returned message is addressed to `user`,
and a message sent by `user` to someone else is never included. -/
theorem c9_listMessages_inbox (msgs : List Mailbox.Message) (user : String) :
    Mailbox.listMessages msgs user = msgs.filter (fun m => m.To == user) ∧
    (∀ m, m ∈ Mailbox.listMessages msgs user ↔ m ∈ msgs ∧ m.To = user) ∧
    (∀ m, m.From = user → ¬ m.To = user →
      m ∉ Mailbox.listMessages msgs user) := by
  have hfil : Mailbox.listMessages msgs user =
      msgs.filter (fun m => m.To == user) := by
    unfold Mailbox.listMessages
    induction msgs with
    | nil => rfl
    | cons m rest ih =>
      simp only [List.filterMap_cons, List.filter_cons]
      rw [ih]
      by_cases h1 : (m.To == user) = true <;>
        by_cases h2 : (m.From == user) = true <;> simp [h1, h2]
  have hmem : ∀ m, m ∈ Mailbox.listMessages msgs user ↔
      m ∈ msgs ∧ m.To = user := by
    intro m
    rw [hfil, List.mem_filter]
    simp
  exact ⟨hfil, hmem, fun m _ hne hmem' => hne ((hmem m).mp hmem').2⟩

namespace GoStr

theorem splitFirst_eq_none {pat : List Char} (hpat : pat ≠ [])
    (l : List Char) : splitFirst pat l = none ↔ goContains l pat = false := by
  induction l with
  | nil =>
    cases pat with
    | nil => exact absurd rfl hpat
    | cons p0 pr => simp [splitFirst, goContains, List.isPrefixOf]
  | cons c rest ih =>
    cases hp : pat.isPrefixOf (c :: rest) with
    | true => simp [splitFirst, goContains, hp]
    | false => simp [splitFirst, goContains, hp, Option.map_eq_none', ih]

theorem singleton_infix_iff {α : Type} (a : α) (l : List α) :
    List.IsInfix [a] l ↔ a ∈ l := by
  constructor
  · rintro ⟨s, t, rfl⟩
    simp
  · intro h
    obtain ⟨s, t, rfl⟩ := List.append_of_mem h
    exact ⟨s, t, by simp⟩

theorem goContains_eq_false_of_not_mem {l : List Char} {c : Char}
    (h : c ∉ l) : goContains l [c] = false := by
  cases hgc : goContains l [c] with
  | false => rfl
  | true =>
    exact absurd ((singleton_infix_iff c l).mp
      ((goContains_infix_iff l [c]).mp hgc)) h

theorem goSplitChar_of_not_mem {c : Char} {l : List Char} (h : c ∉ l) :
    goSplitChar c l = [l] := by
  induction l with
  | nil => rfl
  | cons x xs ih =>
    have hx : ¬ x = c := fun he => h (he ▸ List.mem_cons_self x xs)
    rw [goSplitChar, if_neg hx, ih (fun hm => h (List.mem_cons_of_mem _ hm))]

theorem goSplitChar_append {c : Char} {a b : List Char} (ha : c ∉ a)
    (hb : c ∉ b) : goSplitChar c (a ++ c :: b) = [a, b] := by
  induction a with
  | nil =>
    rw [List.nil_append, goSplitChar, if_pos rfl, goSplitChar_of_not_mem hb]
  | cons x xs ih =>
    have hx : ¬ x = c := fun he => ha (he ▸ List.mem_cons_self x xs)
    rw [List.cons_append, goSplitChar, if_neg hx,
      ih (fun hm => ha (List.mem_cons_of_mem _ hm))]

end GoStr

namespace Qdrant

theorem validScheme_not_mem {l : List Char} (h : validScheme l = true) :
    ':' ∉ l ∧ '/' ∉ l := by
  cases l with
  | nil => simp [validScheme] at h
  | cons c cs =>
    simp only [validScheme, Bool.and_eq_true, List.all_eq_true] at h
    constructor <;> intro hm <;> rcases List.mem_cons.mp hm with he | hm'
    · rw [← he] at h
      exact absurd h.1 (by decide)
    · exact absurd (h.2 _ hm') (by decide)
    · rw [← he] at h
      exact absurd h.1 (by decide)
    · exact absurd (h.2 _ hm') (by decide)

theorem lastColonSplit_no_colon {l : List Char} (h : ':' ∉ l) :
    lastColonSplit l = (l, none) := by
  unfold lastColonSplit
  rw [(GoStr.splitFirst_eq_none (by simp) l.reverse).mpr
    (GoStr.goContains_eq_false_of_not_mem (by simpa using h))]

theorem lastColonSplit_append {a b : List Char} (hb : ':' ∉ b) :
    lastColonSplit (a ++ ':' :: b) = (a, some b) := by
  unfold lastColonSplit
  have hsh : (a ++ ':' :: b).reverse = b.reverse ++ [':'] ++ a.reverse := by
    simp
  rw [hsh, GoStr.splitFirst_append_of_notMem ':' [] b.reverse a.reverse
    (by simpa using hb)]
  simp

theorem digit_hostChar {c : Char} (h : c.isDigit = true) :
    (decide ¬c = '/' && decide ¬c = '?' && decide ¬c = '#') = true := by
  simp only [Bool.and_eq_true, decide_eq_true_eq]
  refine ⟨⟨fun he => ?_, fun he => ?_⟩, fun he => ?_⟩ <;>
    · subst he; exact absurd h (by decide)

theorem goURLParse_no_port (scheme host : String)
    (hs : validScheme scheme.data = true) (hh : PlainHost host) :
    goURLParse (scheme ++ "://" ++ host) =
      some (GoStr.toLower scheme, host, none) := by
  obtain ⟨hc, _⟩ := validScheme_not_mem hs
  unfold goURLParse
  have hd : (scheme ++ "://" ++ host).data =
      scheme.data ++ [':', '/', '/'] ++ host.data := by
    simp [String.data_append]
  rw [hd, GoStr.splitFirst_append_of_notMem ':' ['/', '/'] _ _ hc]
  simp only [hs, if_true]
  rw [List.takeWhile_eq_self_iff.mpr
    (fun c hcm => by
      obtain ⟨h1, h2, h3, h4⟩ := hh c hcm
      simp [h1, h2, h3, h4]),
    lastColonSplit_no_colon (fun hm => (hh _ hm).1 rfl)]
  rfl

theorem goURLParse_with_port (scheme host p : String)
    (hs : validScheme scheme.data = true) (hh : PlainHost host)
    (hpd : p.data.all Char.isDigit = true) :
    goURLParse (scheme ++ "://" ++ host ++ ":" ++ p) =
      some (GoStr.toLower scheme, host, some p) := by
  obtain ⟨hc, _⟩ := validScheme_not_mem hs
  have hpdigit : ∀ c ∈ p.data, c.isDigit = true := List.all_eq_true.mp hpd
  have hpcolon : ':' ∉ p.data := fun hm =>
    absurd (hpdigit _ hm) (by decide)
  unfold goURLParse
  have hd : (scheme ++ "://" ++ host ++ ":" ++ p).data =
      scheme.data ++ [':', '/', '/'] ++ (host.data ++ ':' :: p.data) := by
    simp [String.data_append]
  rw [hd, GoStr.splitFirst_append_of_notMem ':' ['/', '/'] _ _ hc]
  simp only [hs, if_true]
  rw [List.takeWhile_eq_self_iff.mpr ?_, lastColonSplit_append hpcolon]
  · simp only [hpd, if_true]
    rfl
  · intro c hcm
    rcases List.mem_append.mp hcm with hm | hm
    · obtain ⟨h1, h2, h3, h4⟩ := hh c hm
      simp [h1, h2, h3, h4]
    · rcases List.mem_cons.mp hm with he | hm'
      · subst he; decide
      · exact digit_hostChar (hpdigit _ hm')

end Qdrant

namespace GoStr

theorem goContains_cons_false {l pr : List Char} {c : Char} (h : c ∉ l) :
    goContains l (c :: pr) = false := by
  cases hgc : goContains l (c :: pr) with
  | false => rfl
  | true =>
    exact absurd (((goContains_infix_iff l (c :: pr)).mp hgc).subset
      (List.mem_cons_self c pr)) h

theorem no_url_sep {a b : List Char} (ha : ':' ∉ a) (hb : ':' ∉ b)
    (hpre : ['/', '/'].isPrefixOf b = false) :
    goContains (a ++ ':' :: b) [':', '/', '/'] = false := by
  induction a with
  | nil =>
    rw [List.nil_append, goContains]
    have h1 : [':', '/', '/'].isPrefixOf (':' :: b) = false := by
      simp [List.isPrefixOf, hpre]
    rw [h1, goContains_cons_false hb]
    rfl
  | cons c cs ih =>
    rw [List.cons_append, goContains]
    have hc : (':' == c) = false := by
      simp only [beq_eq_false_iff_ne, ne_eq]
      exact fun he => ha (he ▸ List.mem_cons_self c cs)
    have h1 : [':', '/', '/'].isPrefixOf (c :: (cs ++ ':' :: b)) = false := by
      simp [List.isPrefixOf, hc]
    rw [h1, ih (fun hm => ha (List.mem_cons_of_mem _ hm))]
    rfl

end GoStr

/-- **C10.** `ParseAddress` returns `useTLS = true` exactly when the
address parses (in the modelled `scheme://host[:port]` fragment of
`net/url`) with scheme `https`; the port defaults to 6334 when absent, an
explicit `6333` is remapped to 6334 and any other digit port is kept; the
host is the URL hostname, or for a bare `host:port` the part before the
colon, and a string without a colon is returned whole with the
defaults. -/
theorem c10_parseAddress_spec :
    (∀ raw : String, (Qdrant.parseAddress raw).2.2 = true ↔
      ∃ h p, Qdrant.goURLParse raw = some ("https", h, p)) ∧
    (∀ scheme host : String, Qdrant.validScheme scheme.data = true →
      Qdrant.PlainHost host →
      Qdrant.parseAddress (scheme ++ "://" ++ host) =
        (host, 6334, GoStr.toLower scheme == "https")) ∧
    (∀ scheme host p : String, Qdrant.validScheme scheme.data = true →
      Qdrant.PlainHost host → p.data ≠ [] → p.data.all Char.isDigit = true →
      Qdrant.parseAddress (scheme ++ "://" ++ host ++ ":" ++ p) =
        (host,
         if p = "6333" then 6334 else (Qdrant.sscanfInt p.data).getD 6334,
         GoStr.toLower scheme == "https")) ∧
    (∀ host p : String, ':' ∉ host.data → p.data ≠ [] →
      p.data.all Char.isDigit = true →
      Qdrant.parseAddress (host ++ ":" ++ p) =
        (host,
         if p = "6333" then 6334 else (Qdrant.sscanfInt p.data).getD 6334,
         false)) ∧
    (∀ raw : String, ':' ∉ raw.data →
      Qdrant.parseAddress raw = (raw, 6334, false)) := by
  refine ⟨?_, ?_, ?_, ?_, ?_⟩
  · intro raw
    cases hc : GoStr.strContains raw "://" with
    | false =>
      have hnone : Qdrant.goURLParse raw = none := by
        unfold Qdrant.goURLParse
        rw [(GoStr.splitFirst_eq_none (by simp) raw.data).mpr hc]
      rw [Qdrant.parseAddress, hc]
      simp only [Bool.false_eq_true, if_false, hnone]
      constructor
      · intro h
        exact absurd h (by split <;> simp)
      · rintro ⟨h, p, hx⟩
        cases hx
    | true =>
      cases hu : Qdrant.goURLParse raw with
      | none =>
        rw [Qdrant.parseAddress, hc]
        simp [hu]
      | some triple =>
        obtain ⟨scheme, host, portOpt⟩ := triple
        rw [Qdrant.parseAddress, hc]
        simp only [if_true, hu]
        constructor
        · intro h
          simp only [beq_iff_eq] at h
          exact ⟨host, portOpt, by rw [h]⟩
        · rintro ⟨h, p, hx⟩
          simp only [Option.some_inj, Prod.mk.injEq] at hx
          simp [hx.1, beq_iff_eq]
  · intro scheme host hs hh
    have hd : (scheme ++ "://" ++ host).data =
        scheme.data ++ [':', '/', '/'] ++ host.data := by
      simp [String.data_append]
    have hcont : GoStr.strContains (scheme ++ "://" ++ host) "://" = true :=
      (GoStr.goContains_infix_iff _ _).mpr ⟨scheme.data, host.data, hd.symm⟩
    rw [Qdrant.parseAddress, hcont]
    simp only [if_true, Qdrant.goURLParse_no_port scheme host hs hh]
  · intro scheme host p hs hh hpne hpd
    have hd : (scheme ++ "://" ++ host ++ ":" ++ p).data =
        scheme.data ++ [':', '/', '/'] ++ (host.data ++ ':' :: p.data) := by
      simp [String.data_append]
    have hcont : GoStr.strContains (scheme ++ "://" ++ host ++ ":" ++ p)
        "://" = true :=
      (GoStr.goContains_infix_iff _ _).mpr
        ⟨scheme.data, host.data ++ ':' :: p.data, hd.symm⟩
    have hpne' : ¬ p = "" := fun he => hpne (by rw [he])
    rw [Qdrant.parseAddress, hcont]
    simp only [if_true, Qdrant.goURLParse_with_port scheme host p hs hh hpd]
    simp [hpne']
  · intro host p hhost hpne hpd
    have hpdigit : ∀ c ∈ p.data, c.isDigit = true := List.all_eq_true.mp hpd
    have hpcolon : ':' ∉ p.data := fun hm =>
      absurd (hpdigit _ hm) (by decide)
    have hpre : ['/', '/'].isPrefixOf p.data = false := by
      cases hq : p.data with
      | nil => rfl
      | cons c cs =>
        have : ('/' == c) = false := by
          simp only [beq_eq_false_iff_ne, ne_eq]
          intro he
          exact absurd (hpdigit c (hq ▸ List.mem_cons_self c cs))
            (he ▸ by decide)
        simp [List.isPrefixOf, this]
    have hd : (host ++ ":" ++ p).data = host.data ++ ':' :: p.data := by
      simp [String.data_append]
    have hcont : GoStr.strContains (host ++ ":" ++ p) "://" = false := by
      show GoStr.goContains (host ++ ":" ++ p).data [':', '/', '/'] = false
      rw [hd]
      exact GoStr.no_url_sep hhost hpcolon hpre
    rw [Qdrant.parseAddress, hcont]
    simp only [Bool.false_eq_true, if_false, hd,
      GoStr.goSplitChar_append hhost hpcolon]
  · intro raw hraw
    have hcont : GoStr.strContains raw "://" = false :=
      GoStr.goContains_cons_false hraw
    rw [Qdrant.parseAddress, hcont]
    simp only [Bool.false_eq_true, if_false,
      GoStr.goSplitChar_of_not_mem hraw]

/-- Witness for C10, at rows of the source's own `TestParseQdrantAddress`:
`https://qdrant.example.com:8443` keeps port 8443 with TLS,
`http://192.168.0.70:6333` remaps to 6334 without TLS, bare
`192.168.0.70:6333` also remaps, and `https://qdrant.example.com` without
a port defaults to 6334 with TLS. -/
theorem c10_witness :
    Qdrant.parseAddress "https://qdrant.example.com:8443" =
      ("qdrant.example.com", 8443, true) ∧
    Qdrant.parseAddress "http://192.168.0.70:6333" =
      ("192.168.0.70", 6334, false) ∧
    Qdrant.parseAddress "192.168.0.70:6333" = ("192.168.0.70", 6334, false) ∧
    Qdrant.parseAddress "https://qdrant.example.com" =
      ("qdrant.example.com", 6334, true) := by
  refine ⟨?_, ?_, ?_, ?_⟩
  · have h := c10_parseAddress_spec.2.2.1 "https" "qdrant.example.com" "8443"
      (by decide) (by decide) (by decide) (by decide)
    rw [show ("https" ++ "://" ++ "qdrant.example.com" ++ ":" ++ "8443" : String) =
      "https://qdrant.example.com:8443" from rfl] at h
    rw [h]
    decide
  · have h := c10_parseAddress_spec.2.2.1 "http" "192.168.0.70" "6333"
      (by decide) (by decide) (by decide) (by decide)
    rw [show ("http" ++ "://" ++ "192.168.0.70" ++ ":" ++ "6333" : String) =
      "http://192.168.0.70:6333" from rfl] at h
    rw [h]
    decide
  · have h := c10_parseAddress_spec.2.2.2.1 "192.168.0.70" "6333"
      (by decide) (by decide) (by decide)
    rw [show ("192.168.0.70" ++ ":" ++ "6333" : String) =
      "192.168.0.70:6333" from rfl] at h
    rw [h]
    decide
  · have h := c10_parseAddress_spec.2.1 "https" "qdrant.example.com"
      (by decide) (by decide)
    rw [show ("https" ++ "://" ++ "qdrant.example.com" : String) =
      "https://qdrant.example.com" from rfl] at h
    rw [h]
    decide

namespace Memory

theorem chunkLoop_eq_last {runes : List Char} {csz stride i : Nat}
    (h : runes.length ≤ i + csz) :
    chunkLoop runes csz stride i = [(runes.drop i).take csz] := by
  rw [chunkLoop]
  simp [h]

theorem chunkLoop_eq_cons {runes : List Char} {csz stride i : Nat}
    (h : ¬ runes.length ≤ i + csz) (hs : stride ≠ 0) :
    chunkLoop runes csz stride i =
      (runes.drop i).take csz :: chunkLoop runes csz stride (i + stride) := by
  rw [chunkLoop]
  simp [h, hs]

theorem count_step (stride D : Nat) (hs : stride ≠ 0) (hD : 1 ≤ D) :
    (D + stride - 1) / stride = (D - stride + stride - 1) / stride + 1 := by
  rcases Nat.lt_or_ge D stride with h | h
  · have h0 : D - stride = 0 := by omega
    rw [h0]
    have h1 : (0 + stride - 1) / stride = 0 := Nat.div_eq_of_lt (by omega)
    rw [h1]
    exact Nat.div_eq_of_lt_le (by omega) (by omega)
  · have harg : D - stride + stride - 1 = D - 1 := by omega
    have he : D + stride - 1 = (D - 1) + stride := by omega
    rw [harg, he, Nat.add_div_right _ (Nat.pos_of_ne_zero hs)]

theorem chunkLoop_length (runes : List Char) (csz stride : Nat)
    (hs : stride ≠ 0) (i : Nat) :
    (chunkLoop runes csz stride i).length =
      (runes.length - i - csz + stride - 1) / stride + 1 := by
  induction i using chunkLoop.induct runes csz stride with
  | case1 x hx =>
    rw [chunkLoop_eq_last hx]
    have h0 : runes.length - x - csz = 0 := by omega
    rw [h0]
    have h1 : (0 + stride - 1) / stride = 0 := Nat.div_eq_of_lt (by omega)
    rw [h1]
    simp
  | case2 x hx h0 => exact absurd h0 hs
  | case3 x hx h0 ih =>
    rw [chunkLoop_eq_cons hx h0, List.length_cons, ih]
    have hstep := count_step stride (runes.length - x - csz) hs (by omega)
    have hAA : runes.length - (x + stride) - csz + stride - 1 =
        runes.length - x - csz - stride + stride - 1 := by omega
    rw [hAA, hstep]

theorem chunkLoop_getElem (runes : List Char) (csz stride : Nat)
    (hs : stride ≠ 0) (i : Nat) :
    ∀ (j : Nat) (hj : j < (chunkLoop runes csz stride i).length),
      (chunkLoop runes csz stride i)[j] =
        (runes.drop (i + j * stride)).take csz := by
  induction i using chunkLoop.induct runes csz stride with
  | case1 x hx =>
    intro j hj
    simp only [chunkLoop_eq_last hx] at hj ⊢
    simp only [List.length_cons, List.length_nil] at hj
    have hj0 : j = 0 := by omega
    subst hj0
    simp
  | case2 x hx h0 => exact absurd h0 hs
  | case3 x hx h0 ih =>
    intro j hj
    simp only [chunkLoop_eq_cons hx h0] at hj ⊢
    cases j with
    | zero => simp
    | succ j' =>
      simp only [List.getElem_cons_succ]
      rw [ih j' (by simpa using hj),
        show x + (j' + 1) * stride = x + stride + j' * stride from by ring]

end Memory

/-- **C8.** `ArchiveSession` chunking over code points: with the
configured chunk size defaulted to 4096 when non-positive and stride
`chunkSize - chunkSize/10` (10% overlap), a text of at most `chunkSize`
code points is one chunk equal to the whole text; otherwise chunk `j` is
exactly the window of `chunkSize` code points starting at code point
`j * stride` (truncated only at the end), every chunk but the last has
exactly `chunkSize` code points, and the number of chunks is
`(len - chunkSize + stride - 1) / stride + 1`. -/
theorem c8_chunkText_spec (cfg : Int) (text : String) (csz stride : Nat)
    (hcsz : csz = if cfg ≤ 0 then 4096 else cfg.toNat)
    (hstride : stride = csz - csz / 10) :
    (text.data.length ≤ csz → Memory.chunkText cfg text = [text]) ∧
    (csz < text.data.length →
      (Memory.chunkText cfg text).length =
        (text.data.length - csz + stride - 1) / stride + 1 ∧
      (∀ (j : Nat) (hj : j < (Memory.chunkText cfg text).length),
        (Memory.chunkText cfg text)[j].data =
          (text.data.drop (j * stride)).take csz) ∧
      (∀ (j : Nat) (hj : j < (Memory.chunkText cfg text).length),
        j + 1 < (Memory.chunkText cfg text).length →
        (Memory.chunkText cfg text)[j].data.length = csz)) := by
  have hcsz0 : csz ≠ 0 := by
    rw [hcsz]; split <;> omega
  have hs : stride ≠ 0 := by
    have hd := Nat.div_lt_self (Nat.pos_of_ne_zero hcsz0) (by omega : 1 < 10)
    omega
  have hct : Memory.chunkText cfg text =
      if text.data.length ≤ csz then [text]
      else (Memory.chunkLoop text.data csz stride 0).map fun c => ⟨c⟩ := by
    rw [Memory.chunkText, ← hcsz, ← hstride]
  constructor
  · intro h
    rw [hct, if_pos h]
  · intro hlt
    have hneg : ¬ text.data.length ≤ csz := by omega
    have hlen : (Memory.chunkText cfg text).length =
        (text.data.length - csz + stride - 1) / stride + 1 := by
      rw [hct, if_neg hneg, List.length_map,
        Memory.chunkLoop_length text.data csz stride hs 0, Nat.sub_zero]
    have hget : ∀ (j : Nat) (hj : j < (Memory.chunkText cfg text).length),
        (Memory.chunkText cfg text)[j].data =
          (text.data.drop (j * stride)).take csz := by
      intro j hj
      have hj' : j < (Memory.chunkLoop text.data csz stride 0).length := by
        rw [hct, if_neg hneg, List.length_map] at hj
        exact hj
      simp only [hct, if_neg hneg, List.getElem_map]
      rw [Memory.chunkLoop_getElem text.data csz stride hs 0 j hj']
      rw [Nat.zero_add]
    refine ⟨hlen, hget, ?_⟩
    intro j hj hj1
    rw [hget j hj]
    simp only [List.length_take, List.length_drop]
    rw [hlen] at hj1
    have hle : j + 1 ≤ (text.data.length - csz + stride - 1) / stride := by
      omega
    have hmul := (Nat.le_div_iff_mul_le (Nat.pos_of_ne_zero hs)).mp hle
    have hexp : (j + 1) * stride = j * stride + stride := by ring
    omega

/-- Witness for C8 at the spec's scenario 6: a 9000-character text with
chunk size 4096 yields exactly 3 chunks, and the first chunk is the
first 4096 code points. -/
theorem c8_witness :
    (Memory.chunkText 4096 ⟨List.replicate 9000 'a'⟩).length = 3 := by
  have hlen : ((⟨List.replicate 9000 'a'⟩ : String)).data.length = 9000 := by
    rw [show ((⟨List.replicate 9000 'a'⟩ : String)).data =
      List.replicate 9000 'a' from rfl, List.length_replicate]
  have h := (c8_chunkText_spec 4096 ⟨List.replicate 9000 'a'⟩ 4096 3687
    (by decide) (by decide)).2 (by rw [hlen]; decide)
  rw [h.1, hlen]

set_option maxRecDepth 10000 in
/-- **C2 (code evidence).** `ArchiveSession` derives each point id from
`time.Now().UnixNano()` sampled at call time, so archiving the same
workspace, session and messages twice — here at nanosecond timestamps 1
and 2 — upserts points under different ids (the UUIDv3/MD5 values are
computed in full), refuting the claimed idempotence of re-archival. -/
theorem c2_archive_ids_depend_on_clock :
    (Memory.archiveRecords 4096 "w" "s" [⟨"user", "hi"⟩] 1).map Prod.fst =
      ["55a849c8-6226-310a-be1b-2b662101af86"] ∧
    (Memory.archiveRecords 4096 "w" "s" [⟨"user", "hi"⟩] 2).map Prod.fst =
      ["75e84dfc-46b3-3176-bcde-1552b3473b9c"] ∧
    (Memory.archiveRecords 4096 "w" "s" [⟨"user", "hi"⟩] 1).map Prod.fst ≠
      (Memory.archiveRecords 4096 "w" "s" [⟨"user", "hi"⟩] 2).map Prod.fst := by
  refine ⟨by decide, by decide, ?_⟩
  intro h
  have h1 : (Memory.archiveRecords 4096 "w" "s" [⟨"user", "hi"⟩] 1).map
      Prod.fst = ["55a849c8-6226-310a-be1b-2b662101af86"] := by decide
  have h2 : (Memory.archiveRecords 4096 "w" "s" [⟨"user", "hi"⟩] 2).map
      Prod.fst = ["75e84dfc-46b3-3176-bcde-1552b3473b9c"] := by decide
  rw [h1, h2] at h
  exact absurd h (by decide)

namespace GoStr

theorem splitFirst_some_eq {pat l a b : List Char}
    (h : splitFirst pat l = some (a, b)) : l = a ++ pat ++ b := by
  induction l generalizing a b with
  | nil => cases h
  | cons c rest ih =>
    cases hp : pat.isPrefixOf (c :: rest) with
    | true =>
      rw [splitFirst_cons_pos c hp] at h
      obtain ⟨ha, hb⟩ := Prod.mk.injEq .. ▸ Option.some_inj.mp h
      have hpre : pat ++ (c :: rest).drop pat.length = c :: rest :=
        List.prefix_iff_eq_append.mp (List.isPrefixOf_iff_prefix.mp hp)
      rw [← ha, ← hb, List.nil_append, hpre]
    | false =>
      rw [splitFirst_cons_neg c hp] at h
      obtain ⟨⟨a', b'⟩, hsp, hf⟩ := Option.map_eq_some'.mp h
      obtain ⟨ha, hb⟩ := Prod.mk.injEq .. ▸ hf
      rw [← ha, ← hb, List.cons_append, List.cons_append, ih hsp]

theorem goSplitN2_eq {sep s p0 p1 : String}
    (h : goSplitN2 sep s = [p0, p1]) : s = p0 ++ sep ++ p1 := by
  unfold goSplitN2 at h
  cases hsp : splitFirst sep.data s.data with
  | none => rw [hsp] at h; cases h
  | some ab =>
    obtain ⟨a, b⟩ := ab
    rw [hsp] at h
    simp only [List.cons.injEq, and_true] at h
    apply String.ext
    rw [splitFirst_some_eq hsp, ← h.1, ← h.2]
    simp [String.data_append]

theorem goSplitN2_sha256 (v : String) :
    goSplitN2 "=" ("sha256=" ++ v) = ["sha256", v] := by
  unfold goSplitN2
  have hd : ("sha256=" ++ v).data = "sha256".data ++ ['='] ++ v.data := by
    rw [String.data_append]
    rfl
  rw [hd, splitFirst_append_of_notMem '=' [] "sha256".data v.data (by decide)]

end GoStr

/-- **C6.** The GitHub gate of `webhookHandler` forwards a POST exactly
when the `X-Hub-Signature-256` header equals `"sha256="` followed by the
lowercase hex HMAC-SHA256 of the raw body under the configured secret
(the HMAC computed in full by the embedded SHA-256); a missing header is
rejected 401, a header not of the form `"sha256=<value>"` is rejected
400, and a well-formed wrong signature is rejected 401.  `hmac.Equal` is
modelled by its value semantics, equality of the compared bytes. -/
theorem c6_github_webhook_gate (secret body : List Nat) (header : String) :
    (Webhook.githubGate secret body header = .forwarded ↔
      header = "sha256=" ++ Crypto.hexEncode (Crypto.hmacSha256 secret body)) ∧
    (header = "" → Webhook.githubGate secret body header = .rejected 401) ∧
    (¬ header = "" → (∀ v : String, ¬ header = "sha256=" ++ v) →
      Webhook.githubGate secret body header = .rejected 400) ∧
    (∀ v : String, header = "sha256=" ++ v →
      ¬ v = Crypto.hexEncode (Crypto.hmacSha256 secret body) →
      Webhook.githubGate secret body header = .rejected 401) := by
  have hne : ∀ v : String, ¬ ("sha256=" ++ v) = "" := by
    intro v he
    have hd := congrArg String.data he
    rw [String.data_append] at hd
    cases hd
  have hform : ∀ v : String, Webhook.githubGate secret body ("sha256=" ++ v) =
      if v = Crypto.hexEncode (Crypto.hmacSha256 secret body) then
        Webhook.Outcome.forwarded
      else Webhook.Outcome.rejected 401 := by
    intro v
    rw [Webhook.githubGate]
    rw [show (("sha256=" ++ v) == "") = false by
      simp only [beq_eq_false_iff_ne, ne_eq]; exact hne v]
    simp only [Bool.false_eq_true, if_false, GoStr.goSplitN2_sha256 v]
    rw [show (("sha256" : String) == "sha256") = true from rfl]
    simp only [Bool.not_true, Bool.false_eq_true, if_false]
    by_cases hv : v = Crypto.hexEncode (Crypto.hmacSha256 secret body)
    · rw [if_pos hv, show (v == Crypto.hexEncode
        (Crypto.hmacSha256 secret body)) = true by simp [hv]]
      rfl
    · rw [if_neg hv, show (v == Crypto.hexEncode
        (Crypto.hmacSha256 secret body)) = false by simp [hv]]
      rfl
  refine ⟨?_, ?_, ?_, ?_⟩
  · constructor
    · intro hf
      by_cases hhe : header = ""
      · rw [Webhook.githubGate, show (header == "") = true by simp [hhe]] at hf
        cases hf
      · rcases hsp : GoStr.goSplitN2 "=" header with _ | ⟨p0, _ | ⟨p1, _ | _⟩⟩
        all_goals
          rw [Webhook.githubGate, show (header == "") = false by simp [hhe],
            hsp] at hf
        · simp at hf
        · simp at hf
        · by_cases h0 : p0 = "sha256"
          · by_cases h1 : p1 = Crypto.hexEncode (Crypto.hmacSha256 secret body)
            · rw [GoStr.goSplitN2_eq hsp, h0, h1]
              rfl
            · simp [h0, h1] at hf
          · simp [h0] at hf
        · simp at hf
    · intro he
      rw [he, hform, if_pos rfl]
  · intro h
    rw [Webhook.githubGate, show (header == "") = true by simp [h]]
    rfl
  · intro hhe hnof
    rcases hsp : GoStr.goSplitN2 "=" header with _ | ⟨p0, _ | ⟨p1, _ | _⟩⟩
    all_goals
      rw [Webhook.githubGate, show (header == "") = false by simp [hhe], hsp]
    · rfl
    · rfl
    · have h0 : ¬ p0 = "sha256" := by
        intro h0
        exact hnof p1 (by rw [GoStr.goSplitN2_eq hsp, h0]; rfl)
      simp [h0]
    · rfl
  · intro v hv hne1
    rw [hv, hform, if_neg hne1]

set_option maxRecDepth 20000 in
/-- Witness for C6: with secret `"secret"` and raw body `"\x7b\x7d"`, the
header carrying the true HMAC-SHA256 hex is forwarded, a well-formed wrong
signature is rejected 401, and a missing header is rejected 401. -/
theorem c6_witness :
    Webhook.githubGate (Crypto.utf8Bytes "secret") (Crypto.utf8Bytes "\x7b\x7d")
      "sha256=77325902caca812dc259733aacd046b73817372c777b8d95b402647474516e13" =
      .forwarded ∧
    Webhook.githubGate (Crypto.utf8Bytes "secret") (Crypto.utf8Bytes "\x7b\x7d")
      "sha256=deadbeef" = .rejected 401 ∧
    Webhook.githubGate (Crypto.utf8Bytes "secret") (Crypto.utf8Bytes "\x7b\x7d")
      "" = .rejected 401 := by
  refine ⟨?_, ?_, ?_⟩
  · exact (c6_github_webhook_gate (Crypto.utf8Bytes "secret")
      (Crypto.utf8Bytes "\x7b\x7d") _).1.mpr (by decide)
  · exact (c6_github_webhook_gate (Crypto.utf8Bytes "secret")
      (Crypto.utf8Bytes "\x7b\x7d") _).2.2.2 "deadbeef" (by decide) (by decide)
  · exact (c6_github_webhook_gate (Crypto.utf8Bytes "secret")
      (Crypto.utf8Bytes "\x7b\x7d") _).2.1 rfl

/-- Witness for C9: in a store holding one message from `kid` to `mom`,
listing `kid`'s inbox does not return the message `kid` sent. -/
theorem c9_witness :
    (⟨"1", "kid", "mom", "hi", false, 0⟩ : Mailbox.Message) ∉
      Mailbox.listMessages [⟨"1", "kid", "mom", "hi", false, 0⟩] "kid" :=
  (c9_listMessages_inbox [⟨"1", "kid", "mom", "hi", false, 0⟩] "kid").2.2
    ⟨"1", "kid", "mom", "hi", false, 0⟩ rfl (by decide)
